import Mathlib

/-!
# Verification of the stem-splitter core (`stem-splitter-core`)

Shallow embedding of the windowed inference-and-reconstruction pipeline of the
`stem-splitter-core` repository: the stem data model and mixer
(`src/core/splitter.rs`, `SeparatedStems`), the windowing orchestrator loop
(`separate_stems_internal`), the engine adapter (`src/core/engine.rs`,
`run_window_demucs`) and the short-time spectral transform kernel.

Samples (`f32` in the source) are modelled as rationals `ℚ`: the orchestrator
and mixer only copy, zero-initialise and add samples, so every claim settled
here is independent of the concrete arithmetic carrier.  The spectral kernel
(claim about perfect reconstruction) is modelled over `ℂ`, as the per-frame
transform is a complex transform.

The source file `src/core/dsp.rs` (planar-stereo conversion, forward/inverse
short-time transform) is not part of the sources provided; following the
specification, the transform kernel is modelled from the spec (§4.1) and the
orchestrator model takes the already-converted planar-stereo buffer as input.
-/

/-! ## Stem data model (`src/core/splitter.rs`) -/

/-- `Stem` enum from `splitter.rs`: the four nominal stem kinds. -/
inductive Stem where
  | vocals
  | drums
  | bass
  | other
deriving DecidableEq, Repr

namespace Stem

/-- `Stem::all()`: the full stem set, in declaration order. -/
def all : List Stem := [Stem.vocals, Stem.drums, Stem.bass, Stem.other]

/-- `Stem::name()`. -/
def name : Stem → String
  | Stem.vocals => "vocals"
  | Stem.drums => "drums"
  | Stem.bass => "bass"
  | Stem.other => "other"

end Stem

/-- `SeparatedStems`: map from stem to its per-sample stereo buffer
(`HashMap<Stem, Vec<[f32; 2]>>` modelled as an optional buffer per stem),
plus sample rate and per-channel sample count. -/
structure SeparatedStems where
  stems : Stem → Option (List (ℚ × ℚ))
  sample_rate : ℕ
  num_samples : ℕ

namespace SeparatedStems

/-- `SeparatedStems::get`: flatten one stem's buffer into interleaved stereo
(the `for s in data { out.push(s[0]); out.push(s[1]) }` loop); an absent stem
yields the empty vector (`unwrap_or_default`). -/
def get (ss : SeparatedStems) (stem : Stem) : List ℚ :=
  match ss.stems stem with
  | some data => data.foldl (fun out s => out ++ [s.1, s.2]) []
  | none => []

/-- One step of the `mix` inner loop: add stereo sample `s` (at index `i`) into
the interleaved output at positions `2*i` and `2*i+1` (`out[i*2] += s[0];
out[i*2+1] += s[1]`). -/
def mixStep (out : List ℚ) (i : ℕ) (s : ℚ × ℚ) : List ℚ :=
  let o1 := out.set (2 * i) (out.getD (2 * i) 0 + s.1)
  o1.set (2 * i + 1) (o1.getD (2 * i + 1) 0 + s.2)

/-- The `mix` inner loop over one stem's buffer (`for (i, s) in
data.iter().enumerate() { ... }`). -/
def accumStem (out : List ℚ) (data : List (ℚ × ℚ)) : List ℚ :=
  data.enum.foldl (fun o p => mixStep o p.1 p.2) out

/-- `SeparatedStems::mix`: zero-initialised interleaved buffer of length
`2 * num_samples`, accumulating each requested stem's buffer in order; absent
stems contribute nothing. -/
def mix (ss : SeparatedStems) (stems : List Stem) : List ℚ :=
  stems.foldl
    (fun out stem =>
      match ss.stems stem with
      | some data => accumStem out data
      | none => out)
    (List.replicate (2 * ss.num_samples) 0)

/-- `SeparatedStems::mix_except`: mix every stem of `Stem::all()` that is not
in `exclude`. -/
def mix_except (ss : SeparatedStems) (exclude : List Stem) : List ℚ :=
  ss.mix (Stem.all.filter (fun s => !(exclude.contains s)))

end SeparatedStems

/-! ## Stem-name resolution (`separate_stems_internal` tail and
`Separator::separate`) -/

/-- The default stem-name list used when the manifest declares none
(`vec!["vocals", "drums", "bass", "other"]`). -/
def defaultStemNames : List String := ["vocals", "drums", "bass", "other"]

/-- Model of Rust's `str::to_lowercase`: lowercase each character.  (Stated
on the character list so that concrete instances reduce in the kernel.) -/
def strToLower (s : String) : String := ⟨s.data.map Char.toLower⟩

/-- The `name_idx` table: for each manifest stem name (in order), insert its
lowercased form mapped to its position; a later duplicate overwrites an
earlier one, as with `HashMap::insert`. -/
def buildNameIdx (names : List String) : String → Option ℕ :=
  names.enum.foldl
    (fun m p => fun k => if k = strToLower p.2 then some p.1 else m k)
    (fun _ => none)

/-- The `get_idx` closure of `Separator::separate` / `split_file` /
`remove_vocals`: look the key up in `name_idx`, falling back to
`fallback.min(stems_count.saturating_sub(1))`. -/
def getIdx (nameIdx : String → Option ℕ) (stemsCount : ℕ)
    (key : String) (fallback : ℕ) : ℕ :=
  (nameIdx key).getD (min fallback (stemsCount - 1))

/-- The four resolution calls of `Separator::separate`: requested name and
positional fallback per stem kind. -/
def resolveStem (nameIdx : String → Option ℕ) (stemsCount : ℕ) : Stem → ℕ
  | Stem.vocals => getIdx nameIdx stemsCount "vocals" 0
  | Stem.drums => getIdx nameIdx stemsCount "drums" 1
  | Stem.bass => getIdx nameIdx stemsCount "bass" 2
  | Stem.other => getIdx nameIdx stemsCount "other" 3

/-- The positional defaults used by `Separator::separate`. -/
def stemFallback : Stem → ℕ
  | Stem.vocals => 0
  | Stem.drums => 1
  | Stem.bass => 2
  | Stem.other => 3

/-! ### Characterisation of the mixer loops -/

namespace SeparatedStems

/-- Reference value of the contribution a buffer slice starting at enumeration
index `k` makes to interleaved position `j`. -/
def contrib (k : ℕ) (data : List (ℚ × ℚ)) (j : ℕ) : ℚ :=
  match data with
  | [] => 0
  | s :: rest =>
      (if j = 2 * k then s.1 else if j = 2 * k + 1 then s.2 else 0) +
        contrib (k + 1) rest j

theorem length_mixStep (out : List ℚ) (i : ℕ) (s : ℚ × ℚ) :
    (mixStep out i s).length = out.length := by
  simp [mixStep]

theorem getD_mixStep (out : List ℚ) (i : ℕ) (s : ℚ × ℚ)
    (h : 2 * i + 1 < out.length) (j : ℕ) :
    (mixStep out i s).getD j 0 =
      out.getD j 0 +
        (if j = 2 * i then s.1 else if j = 2 * i + 1 then s.2 else 0) := by
  have h0 : 2 * i < out.length := Nat.lt_of_succ_lt h
  simp only [mixStep, List.getD_eq_getElem?_getD, List.getElem?_set,
    List.length_set]
  rcases eq_or_ne j (2 * i) with rfl | hne0
  · simp [h0, Nat.ne_of_lt h0, h, List.getD_eq_getElem?_getD]
  · rcases eq_or_ne j (2 * i + 1) with rfl | hne1
    · simp [h, (Nat.succ_ne_self (2*i)).symm, hne0.symm, List.getD_eq_getElem?_getD]
    · simp [hne0.symm, hne1.symm, if_neg hne0, if_neg hne1,
        List.getD_eq_getElem?_getD]

theorem length_foldl_mixStep (l : List (ℕ × (ℚ × ℚ))) (out : List ℚ) :
    (l.foldl (fun o p => mixStep o p.1 p.2) out).length = out.length := by
  induction l generalizing out with
  | nil => rfl
  | cons p rest ih => simp [ih, length_mixStep]

theorem getD_foldl_enumFrom (data : List (ℚ × ℚ)) (k : ℕ) (out : List ℚ)
    (hlen : 2 * (k + data.length) ≤ out.length) (j : ℕ) :
    ((data.enumFrom k).foldl (fun o p => mixStep o p.1 p.2) out).getD j 0 =
      out.getD j 0 + contrib k data j := by
  induction data generalizing k out with
  | nil => simp [contrib]
  | cons s rest ih =>
      have hone : 2 * k + 1 < out.length := by
        simp only [List.length_cons] at hlen; omega
      have hrec : 2 * ((k + 1) + rest.length) ≤ (mixStep out k s).length := by
        rw [length_mixStep]
        simp only [List.length_cons] at hlen; omega
      calc ((rest.enumFrom (k+1)).foldl (fun o p => mixStep o p.1 p.2)
              (mixStep out k s)).getD j 0
          = (mixStep out k s).getD j 0 + contrib (k+1) rest j := ih (k+1) _ hrec
        _ = out.getD j 0 + contrib k (s :: rest) j := by
            rw [getD_mixStep out k s hone j, contrib, add_assoc]

/-- `contrib` vanishes at positions before the slice's start. -/
theorem contrib_of_lt (data : List (ℚ × ℚ)) (k j : ℕ) (h : j < 2 * k) :
    contrib k data j = 0 := by
  induction data generalizing k with
  | nil => rfl
  | cons s rest ih =>
      rw [contrib, if_neg (by omega), if_neg (by omega), ih (k+1) (by omega),
        add_zero]

/-- The contribution at even position `2 * (k + i)` picks the left component
of entry `i`. -/
theorem contrib_left (data : List (ℚ × ℚ)) (k i : ℕ) :
    contrib k data (2 * (k + i)) =
      if i < data.length then (data.getD i (0, 0)).1 else 0 := by
  induction data generalizing k i with
  | nil => simp [contrib]
  | cons s rest ih =>
      cases i with
      | zero =>
          rw [contrib, Nat.add_zero, if_pos rfl,
            contrib_of_lt rest (k+1) (2*k) (by omega)]
          simp
      | succ i' =>
          rw [contrib, if_neg (by omega), if_neg (by omega)]
          have := ih (k+1) i'
          rw [show 2 * (k + (i' + 1)) = 2 * ((k + 1) + i') by omega, this]
          simp

/-- The contribution at odd position `2 * (k + i) + 1` picks the right
component of entry `i`. -/
theorem contrib_right (data : List (ℚ × ℚ)) (k i : ℕ) :
    contrib k data (2 * (k + i) + 1) =
      if i < data.length then (data.getD i (0, 0)).2 else 0 := by
  induction data generalizing k i with
  | nil => simp [contrib]
  | cons s rest ih =>
      cases i with
      | zero =>
          simp only [Nat.add_zero]
          rw [contrib, if_neg (by omega), if_pos rfl,
            contrib_of_lt rest (k+1) (2*k+1) (by omega)]
          simp
      | succ i' =>
          rw [contrib, if_neg (by omega), if_neg (by omega)]
          have := ih (k+1) i'
          rw [show 2 * (k + (i' + 1)) + 1 = 2 * ((k + 1) + i') + 1 by omega, this]
          simp

theorem length_accumStem (out : List ℚ) (data : List (ℚ × ℚ)) :
    (accumStem out data).length = out.length :=
  length_foldl_mixStep _ _

theorem getD_accumStem (out : List ℚ) (data : List (ℚ × ℚ))
    (hlen : 2 * data.length ≤ out.length) (j : ℕ) :
    (accumStem out data).getD j 0 = out.getD j 0 + contrib 0 data j :=
  getD_foldl_enumFrom data 0 out (by omega) j

/-- Reference interleaving of a stereo buffer, for comparison with the
push-loop of `SeparatedStems::get`. -/
def interleave : List (ℚ × ℚ) → List ℚ
  | [] => []
  | s :: rest => s.1 :: s.2 :: interleave rest

theorem foldl_push_eq_interleave (data : List (ℚ × ℚ)) (acc : List ℚ) :
    data.foldl (fun out s => out ++ [s.1, s.2]) acc = acc ++ interleave data := by
  induction data generalizing acc with
  | nil => simp [interleave]
  | cons s rest ih => simp [interleave, ih]

theorem length_interleave (data : List (ℚ × ℚ)) :
    (interleave data).length = 2 * data.length := by
  induction data with
  | nil => rfl
  | cons s rest ih => simp [interleave, ih]; omega

theorem interleave_getD_left (data : List (ℚ × ℚ)) (i : ℕ)
    (h : i < data.length) :
    (interleave data).getD (2 * i) 0 = (data.getD i (0, 0)).1 := by
  induction data generalizing i with
  | nil => simp at h
  | cons s rest ih =>
      cases i with
      | zero => simp [interleave]
      | succ i' =>
          have : 2 * (i' + 1) = (2 * i') + 1 + 1 := by omega
          simp only [interleave, this, List.getD_cons_succ]
          exact ih i' (by simpa using h)

theorem interleave_getD_right (data : List (ℚ × ℚ)) (i : ℕ)
    (h : i < data.length) :
    (interleave data).getD (2 * i + 1) 0 = (data.getD i (0, 0)).2 := by
  induction data generalizing i with
  | nil => simp at h
  | cons s rest ih =>
      cases i with
      | zero => simp [interleave]
      | succ i' =>
          have : 2 * (i' + 1) + 1 = (2 * i' + 1) + 1 + 1 := by omega
          simp only [interleave, this, List.getD_cons_succ]
          exact ih i' (by simpa using h)

/-- `get` on a present stem is the interleaving of its buffer. -/
theorem get_eq_interleave (ss : SeparatedStems) (stem : Stem)
    (data : List (ℚ × ℚ)) (h : ss.stems stem = some data) :
    ss.get stem = interleave data := by
  simp [get, h, foldl_push_eq_interleave]

/-- `mix` always returns a buffer of length `2 * num_samples`, whatever stems
are requested. -/
theorem length_mix (ss : SeparatedStems) (stems : List Stem) :
    (ss.mix stems).length = 2 * ss.num_samples := by
  rw [mix]
  have : ∀ (l : List Stem) (out : List ℚ),
      (l.foldl (fun out stem =>
        match ss.stems stem with
        | some data => accumStem out data
        | none => out) out).length = out.length := by
    intro l
    induction l with
    | nil => intro out; rfl
    | cons st rest ih =>
        intro out
        rw [List.foldl_cons, ih]
        cases h : ss.stems st <;> simp [length_accumStem]
  rw [this, List.length_replicate]

/-- Pointwise value of `mix` over the full stem set, when all four stems are
present with buffers of the accumulator length. -/
theorem getD_mix_all (ss : SeparatedStems) (v d b o : List (ℚ × ℚ))
    (hv : ss.stems Stem.vocals = some v) (hd : ss.stems Stem.drums = some d)
    (hb : ss.stems Stem.bass = some b) (ho : ss.stems Stem.other = some o)
    (hlv : v.length = ss.num_samples) (hld : d.length = ss.num_samples)
    (hlb : b.length = ss.num_samples) (hlo : o.length = ss.num_samples)
    (j : ℕ) (hj : j < 2 * ss.num_samples) :
    (ss.mix Stem.all).getD j 0 =
      contrib 0 v j + contrib 0 d j + contrib 0 b j + contrib 0 o j := by
  have hz : (List.replicate (2 * ss.num_samples) (0:ℚ)).getD j 0 = 0 := by
    simp [List.getD_eq_getElem?_getD, List.getElem?_replicate, hj]
  have l0 : (List.replicate (2 * ss.num_samples) (0:ℚ)).length =
      2 * ss.num_samples := List.length_replicate ..
  rw [mix, Stem.all]
  simp only [List.foldl_cons, List.foldl_nil, hv, hd, hb, ho]
  rw [getD_accumStem _ o (by simp [length_accumStem, l0]; omega),
    getD_accumStem _ b (by simp [length_accumStem, l0]; omega),
    getD_accumStem _ d (by simp [length_accumStem, l0]; omega),
    getD_accumStem _ v (by simp [l0]; omega), hz]
  ring

end SeparatedStems

/-- **C5** — Mix algebra: `mix_except exclude` coincides with `mix` over the
complement of `exclude` within the full stem set, and `mix` over the full
stem set is the elementwise sum of the four individual stem buffers (on both
interleaved channels), with the output buffer of length `2 * num_samples`. -/
theorem claim_C5_mix_algebra (ss : SeparatedStems) (exclude : List Stem)
    (v d b o : List (ℚ × ℚ))
    (hv : ss.stems Stem.vocals = some v) (hd : ss.stems Stem.drums = some d)
    (hb : ss.stems Stem.bass = some b) (ho : ss.stems Stem.other = some o)
    (hlv : v.length = ss.num_samples) (hld : d.length = ss.num_samples)
    (hlb : b.length = ss.num_samples) (hlo : o.length = ss.num_samples) :
    ss.mix_except exclude =
      ss.mix (Stem.all.filter (fun s => decide (s ∉ exclude))) ∧
    (ss.mix Stem.all).length = 2 * ss.num_samples ∧
    ∀ i, i < ss.num_samples →
      (ss.mix Stem.all).getD (2 * i) 0 =
        (v.getD i (0, 0)).1 + (d.getD i (0, 0)).1 +
          (b.getD i (0, 0)).1 + (o.getD i (0, 0)).1 ∧
      (ss.mix Stem.all).getD (2 * i + 1) 0 =
        (v.getD i (0, 0)).2 + (d.getD i (0, 0)).2 +
          (b.getD i (0, 0)).2 + (o.getD i (0, 0)).2 := by
  refine ⟨?_, SeparatedStems.length_mix ss Stem.all, ?_⟩
  · rw [SeparatedStems.mix_except]
    congr 1
    apply List.filter_congr
    intro s _
    simp [List.elem_eq_mem]
  · intro i hi
    have hconl : ∀ (l : List (ℚ × ℚ)), l.length = ss.num_samples →
        SeparatedStems.contrib 0 l (2 * i) = (l.getD i (0, 0)).1 := by
      intro l hl
      have := SeparatedStems.contrib_left l 0 i
      rw [Nat.zero_add] at this
      rw [this, if_pos (by omega)]
    have hconr : ∀ (l : List (ℚ × ℚ)), l.length = ss.num_samples →
        SeparatedStems.contrib 0 l (2 * i + 1) = (l.getD i (0, 0)).2 := by
      intro l hl
      have := SeparatedStems.contrib_right l 0 i
      rw [Nat.zero_add] at this
      rw [this, if_pos (by omega)]
    constructor
    · rw [SeparatedStems.getD_mix_all ss v d b o hv hd hb ho hlv hld hlb hlo
        (2 * i) (by omega), hconl v hlv, hconl d hld, hconl b hlb, hconl o hlo]
    · rw [SeparatedStems.getD_mix_all ss v d b o hv hd hb ho hlv hld hlb hlo
        (2 * i + 1) (by omega), hconr v hlv, hconr d hld, hconr b hlb,
        hconr o hlo]

/-- Witness for C5 at a concrete one-sample, all-stems-present value. -/
theorem claim_C5_mix_algebra_witness :
    (SeparatedStems.mk (fun _ => some [(1, 2)]) 44100 1).mix_except [Stem.vocals] =
      (SeparatedStems.mk (fun _ => some [(1, 2)]) 44100 1).mix
        (Stem.all.filter (fun s => decide (s ∉ [Stem.vocals]))) ∧
    ((SeparatedStems.mk (fun _ => some [(1, 2)]) 44100 1).mix Stem.all).getD 0 0 = 4 := by
  have h := claim_C5_mix_algebra (SeparatedStems.mk (fun _ => some [(1, 2)]) 44100 1)
    [Stem.vocals] [(1, 2)] [(1, 2)] [(1, 2)] [(1, 2)]
    rfl rfl rfl rfl rfl rfl rfl rfl
  refine ⟨h.1, ?_⟩
  have h2 := (h.2.2 0 (by decide)).1
  simpa using h2.trans (by norm_num)

/-- **C10** — `SeparatedStems::get`: on a present stem whose buffer has the
accumulator length, `get` returns the interleaved stereo vector of length
exactly `2 * num_samples` (even positions left channel, odd positions right
channel); on an absent stem it returns the empty vector. -/
theorem claim_C10_get (ss : SeparatedStems) (stem : Stem) :
    (∀ data, ss.stems stem = some data → data.length = ss.num_samples →
      (ss.get stem).length = 2 * ss.num_samples ∧
      ∀ i, i < ss.num_samples →
        (ss.get stem).getD (2 * i) 0 = (data.getD i (0, 0)).1 ∧
        (ss.get stem).getD (2 * i + 1) 0 = (data.getD i (0, 0)).2) ∧
    (ss.stems stem = none → ss.get stem = []) := by
  constructor
  · intro data hsome hlen
    rw [SeparatedStems.get_eq_interleave ss stem data hsome]
    refine ⟨by rw [SeparatedStems.length_interleave, hlen], ?_⟩
    intro i hi
    exact ⟨SeparatedStems.interleave_getD_left data i (by omega),
      SeparatedStems.interleave_getD_right data i (by omega)⟩
  · intro hnone
    simp [SeparatedStems.get, hnone]

/-- Witness for C10 at concrete present and absent stems. -/
theorem claim_C10_get_witness :
    ((SeparatedStems.mk
        (fun st => if st = Stem.vocals then some [(5, 7)] else none) 44100 1).get
      Stem.vocals).length = 2 * 1 ∧
    (SeparatedStems.mk
        (fun st => if st = Stem.vocals then some [(5, 7)] else none) 44100 1).get
      Stem.drums = [] := by
  have h := claim_C10_get (SeparatedStems.mk
    (fun st => if st = Stem.vocals then some [(5, 7)] else none) 44100 1)
  exact ⟨((h Stem.vocals).1 [(5, 7)] rfl rfl).1,
    (claim_C10_get _ Stem.drums).2 rfl⟩

/-! ### Characterisation of stem-name resolution -/

/-- Reference lookup: the index of the last entry of an enumerated name list
whose lowercased name equals `key` (later `HashMap::insert`s overwrite
earlier ones). -/
def lookupLastIdx (key : String) : List (ℕ × String) → Option ℕ
  | [] => none
  | p :: rest =>
      match lookupLastIdx key rest with
      | some i => some i
      | none => if key = strToLower p.2 then some p.1 else none

theorem foldl_insert_eq_lookupLastIdx (l : List (ℕ × String))
    (m : String → Option ℕ) (k : String) :
    (l.foldl (fun m p => fun k => if k = strToLower p.2 then some p.1 else m k) m) k =
      match lookupLastIdx k l with
      | some i => some i
      | none => m k := by
  induction l generalizing m with
  | nil => simp [lookupLastIdx]
  | cons p rest ih =>
      rw [List.foldl_cons, ih, lookupLastIdx]
      cases lookupLastIdx k rest with
      | some i => simp
      | none =>
          by_cases h : k = strToLower p.2 <;> simp [h]

theorem buildNameIdx_eq (names : List String) (key : String) :
    buildNameIdx names key = lookupLastIdx key names.enum := by
  rw [buildNameIdx, foldl_insert_eq_lookupLastIdx]
  cases lookupLastIdx key names.enum <;> rfl

theorem lookupLastIdx_eq_none_iff (key : String) (l : List (ℕ × String)) :
    lookupLastIdx key l = none ↔ ∀ p ∈ l, key ≠ strToLower p.2 := by
  induction l with
  | nil => simp [lookupLastIdx]
  | cons p rest ih =>
      rw [lookupLastIdx]
      cases h : lookupLastIdx key rest with
      | some i =>
          show some i = none ↔ _
          constructor
          · intro hc; exact absurd hc (by simp)
          · intro hall
            have : lookupLastIdx key rest = none :=
              ih.mpr fun q hq => hall q (List.mem_cons_of_mem p hq)
            exact absurd (h.symm.trans this) (by simp)
      | none =>
          by_cases hk : key = strToLower p.2
          · rw [if_pos hk]
            constructor
            · intro hc; exact absurd hc (by simp)
            · intro hall; exact absurd hk (hall p (List.mem_cons_self p rest))
          · rw [if_neg hk]
            constructor
            · intro _ q hq
              rcases List.mem_cons.mp hq with rfl | hq'
              · exact hk
              · exact ih.mp h q hq'
            · intro _; rfl

theorem lookupLastIdx_mem (key : String) (l : List (ℕ × String)) (i : ℕ)
    (h : lookupLastIdx key l = some i) :
    ∃ nm, (i, nm) ∈ l ∧ key = strToLower nm := by
  induction l with
  | nil => simp [lookupLastIdx] at h
  | cons p rest ih =>
      rw [lookupLastIdx] at h
      cases hr : lookupLastIdx key rest with
      | some j =>
          rw [hr] at h
          obtain ⟨nm, hmem, hkey⟩ := ih (hr.trans (by simpa using h))
          exact ⟨nm, by simp [hmem], hkey⟩
      | none =>
          rw [hr] at h
          by_cases hk : key = strToLower p.2
          · rw [if_pos hk] at h
            exact ⟨p.2, by simp [← Option.some_inj.mp h], hk⟩
          · rw [if_neg hk] at h; exact absurd h (by simp)

/-- The `name_idx` map is sound: a hit names an index the manifest declares
(case-insensitively) for the requested key. -/
theorem buildNameIdx_sound (names : List String) (key : String) (i : ℕ)
    (h : buildNameIdx names key = some i) :
    ∃ nm, names[i]? = some nm ∧ strToLower nm = key := by
  rw [buildNameIdx_eq] at h
  obtain ⟨nm, hmem, hkey⟩ := lookupLastIdx_mem key names.enum i h
  exact ⟨nm, List.mk_mem_enum_iff_getElem?.mp hmem, hkey.symm⟩

/-- The `name_idx` map misses exactly when no manifest name lowercases to the
requested key. -/
theorem buildNameIdx_none_iff (names : List String) (key : String) :
    buildNameIdx names key = none ↔ ∀ nm ∈ names, strToLower nm ≠ key := by
  rw [buildNameIdx_eq, lookupLastIdx_eq_none_iff]
  constructor
  · intro hall nm hnm
    obtain ⟨j, hj⟩ := List.getElem?_of_mem hnm
    exact fun hc => hall (j, nm) (List.mk_mem_enum_iff_getElem?.mpr hj) hc.symm
  · intro hall p hp
    have : names[p.1]? = some p.2 := List.mk_mem_enum_iff_getElem?.mp hp
    exact fun hc => hall p.2 (List.getElem?_mem this) hc.symm

/-- **C6** — Stem-name resolution: a name present in the manifest resolves to
the index the manifest declares for it (case-insensitively, a hit always wins
over the positional default); an absent name falls back to the positional
defaults 0,1,2,3 for vocals, drums, bass, other, clamped to `S - 1`.  In
particular, with manifest stem names `["drums","bass","other","vocals"]`,
`"vocals"` resolves to index 3, not the positional default 0. -/
theorem claim_C6_name_resolution :
    (∀ (names : List String) (sc : ℕ) (key : String) (fb i : ℕ),
      buildNameIdx names key = some i →
      getIdx (buildNameIdx names) sc key fb = i ∧
      ∃ nm, names[i]? = some nm ∧ strToLower nm = key) ∧
    (∀ (names : List String) (sc : ℕ) (stem : Stem),
      (∀ nm ∈ names, strToLower nm ≠ stem.name) →
      resolveStem (buildNameIdx names) sc stem =
        min (stemFallback stem) (sc - 1)) ∧
    resolveStem (buildNameIdx ["drums", "bass", "other", "vocals"]) 4
      Stem.vocals = 3 := by
  refine ⟨?_, ?_, by decide⟩
  · intro names sc key fb i h
    exact ⟨by simp [getIdx, h], buildNameIdx_sound names key i h⟩
  · intro names sc stem habsent
    have hnone : buildNameIdx names stem.name = none :=
      (buildNameIdx_none_iff names stem.name).mpr habsent
    cases stem <;>
      simp [resolveStem, getIdx, stemFallback, Stem.name] at hnone ⊢ <;>
      simp [hnone]

/-- Witness for C6: a concrete present hit and a concrete absent fallback. -/
theorem claim_C6_name_resolution_witness :
    getIdx (buildNameIdx ["drums", "VOCALS"]) 2 "vocals" 0 = 1 ∧
    resolveStem (buildNameIdx ["foo"]) 2 Stem.bass = min 2 (2 - 1) := by
  constructor
  · exact ((claim_C6_name_resolution.1 ["drums", "VOCALS"] 2 "vocals" 0 1)
      (by decide)).1
  · exact claim_C6_name_resolution.2.1 ["foo"] 2 Stem.bass (by decide)

/-! ## The windowing orchestrator (`separate_stems_internal`, `splitter.rs`) -/

/-- Error kinds of the pipeline, one constructor per `Err`/panic site of the
source (`anyhow!` messages in `splitter.rs`/`engine.rs`, ndarray/slice
indexing panics, `from_shape_vec` shape errors).  `outOfFuel` is the
fuel-exhaustion marker of the loop model; it is proved unreachable. -/
inductive Err where
  | badSampleRate
  | emptyAudio
  | badWinHop
  | lrMismatch
  | badWindowLen
  | specDims
  | missingInput
  | missingOutputFreq
  | missingOutputTime
  | freqShape
  | shapeVec
  | panicIndex
  | engineFail
  | outOfFuel
deriving DecidableEq, Repr

/-- One window's engine output: the `Array3<f32>` of shape
`(sCount, 2, tOut)` returned by `run_window_demucs`. -/
structure EngineOut where
  sCount : ℕ
  tOut : ℕ
  data : ℕ → ℕ → ℕ → ℚ

/-- `ndarray` indexing `out[(st, c, i)]`: panics out of bounds. -/
def arr3Get (o : EngineOut) (st c i : ℕ) : Except Err ℚ :=
  if st < o.sCount ∧ c < 2 ∧ i < o.tOut then .ok (o.data st c i)
  else .error .panicIndex

/-- The per-stem accumulators `acc : Vec<Vec<[f32; 2]>>`, modelled as a
stem-indexed, sample-indexed function (its extents `stems_count` and `n` are
carried alongside; all loop writes are proved in-bounds). -/
abbrev Acc2 := ℕ → ℕ → ℚ × ℚ

/-- Writing one stereo sample `acc[st][j] = v`. -/
def writeAcc (acc : Acc2) (st j : ℕ) (v : ℚ × ℚ) : Acc2 :=
  fun st' j' => if st' = st ∧ j' = j then v else acc st' j'

/-- Body of the copy loop: `acc[st][pos + i][0] = out[(st, 0, i)];
acc[st][pos + i][1] = out[(st, 1, i)]`. -/
def copyOne (o : EngineOut) (pos st i : ℕ) (acc : Acc2) : Except Err Acc2 := do
  let l ← arr3Get o st 0 i
  let r ← arr3Get o st 1 i
  pure (writeAcc acc st (pos + i) (l, r))

/-- Inner copy loop `for i in 0..copy_len`. -/
def copyStem (o : EngineOut) (pos copyLen st : ℕ) (acc : Acc2) :
    Except Err Acc2 :=
  (List.range copyLen).foldlM (fun a i => copyOne o pos st i a) acc

/-- Outer copy loop `for st in 0..stems_count`. -/
def copyWindow (o : EngineOut) (pos copyLen stemsCount : ℕ) (acc : Acc2) :
    Except Err Acc2 :=
  (List.range stemsCount).foldlM (fun a st => copyStem o pos copyLen st a) acc

/-- The window fill of one iteration: `left_raw[i]`/`right_raw[i]` are the
input at `pos + i` when in range and zero otherwise (tail zero-padding). -/
def windowRaw (stereo : List (ℚ × ℚ)) (n win pos : ℕ) : List ℚ × List ℚ :=
  ((List.range win).map
      (fun i => if pos + i < n then (stereo.getD (pos + i) (0, 0)).1 else 0),
   (List.range win).map
      (fun i => if pos + i < n then (stereo.getD (pos + i) (0, 0)).2 else 0))

/-- The opaque per-window inference call (`engine::run_window_demucs`). -/
abbrev Engine := List ℚ → List ℚ → Except Err EngineOut

/-- The `while pos < n` loop of `separate_stems_internal`, with explicit fuel
(the loop advances by `hop ≥ 1` per iteration, so fuel `n + 1` suffices and
`outOfFuel` is unreachable).  State: `pos`, `first_chunk`, `stems_count`,
`acc`. -/
def sepLoopAux (engine : Engine) (stereo : List (ℚ × ℚ)) (n win hop : ℕ) :
    ℕ → ℕ → Bool → ℕ → Acc2 → Except Err (Acc2 × ℕ)
  | 0, _, _, _, _ => .error .outOfFuel
  | fuel + 1, pos, firstChunk, stemsCount, acc =>
      if pos < n then
        let lr := windowRaw stereo n win pos
        match engine lr.1 lr.2 with
        | .error e => .error e
        | .ok out =>
            let sc := if firstChunk then out.sCount else stemsCount
            let acc0 := if firstChunk then (fun _ _ => ((0 : ℚ), (0 : ℚ))) else acc
            let copyLen := min hop (min out.tOut (n - pos))
            match copyWindow out pos copyLen sc acc0 with
            | .error e => .error e
            | .ok acc1 =>
                if n ≤ pos + hop then .ok (acc1, sc)
                else sepLoopAux engine stereo n win hop fuel (pos + hop) false sc acc1
      else .ok (acc, stemsCount)

/-- The manifest fields consumed by the orchestrator. -/
structure ModelManifest where
  sample_rate : ℕ
  window : ℕ
  hop : ℕ
  stems : List String

/-- The internal result struct. -/
structure StemDataInternal where
  acc : Acc2
  stems_count : ℕ
  name_idx : String → Option ℕ
  sample_rate : ℕ
  n : ℕ

/-- `separate_stems_internal`: the configuration checks, the windowed
inference loop and the name-index construction.  The model takes the
already-converted planar-stereo buffer (`to_planar_stereo` lives in the
external `dsp` module) and the engine as explicit inputs. -/
def separate_stems_internal (mf : ModelManifest) (stereo : List (ℚ × ℚ))
    (engine : Engine) : Except Err StemDataInternal :=
  if mf.sample_rate ≠ 44100 then .error .badSampleRate
  else
    let n := stereo.length
    if n = 0 then .error .emptyAudio
    else if ¬(0 < mf.window ∧ 0 < mf.hop ∧ mf.hop ≤ mf.window) then
      .error .badWinHop
    else
      match sepLoopAux engine stereo n mf.window mf.hop (n + 1) 0 true
          (max mf.stems.length 1) (fun _ _ => (0, 0)) with
      | .error e => .error e
      | .ok (acc, sc) =>
          let names := if mf.stems.isEmpty then defaultStemNames else mf.stems
          .ok ⟨acc, sc, buildNameIdx names, mf.sample_rate, n⟩

/-- The per-iteration write regions `(pos, copy_len)` produced by the
orchestrator loop, mirroring `sepLoopAux`'s control flow
(`copy_len = hop.min(t_out).min(n - pos)`; advance by `hop`; break once
`pos + hop ≥ n`), with `tOut pos` the length of the engine's time output for
the window at `pos`. -/
def orchRegions (n hop : ℕ) (tOut : ℕ → ℕ) : ℕ → ℕ → List (ℕ × ℕ)
  | 0, _ => []
  | fuel + 1, pos =>
      if pos < n then
        (pos, min hop (min (tOut pos) (n - pos))) ::
          (if n ≤ pos + hop then [] else orchRegions n hop tOut fuel (pos + hop))
      else []

/-! ### Characterisation of the copy loops -/

theorem except_ok_bind {α β : Type} (a : α) (f : α → Except Err β) :
    (Except.ok a >>= f) = f a := rfl

theorem except_error_bind {α β : Type} (e : Err) (f : α → Except Err β) :
    ((Except.error e : Except Err α) >>= f) = Except.error e := rfl

theorem foldlM_singleton {α : Type} (f : α → ℕ → Except Err α) (a : α)
    (x : ℕ) : ([x].foldlM f a) = f a x := by
  show f a x >>= (fun b => pure b) = f a x
  rw [bind_pure]

/-- A successful `copy_len`-sample copy of stem `st`: exactly the positions
`pos ≤ j < pos + copy_len` of stem `st` are overwritten, from the first
`copy_len` samples of the engine output. -/
theorem copyStem_ok (o : EngineOut) (pos copyLen st : ℕ) (acc : Acc2)
    (hst : st < o.sCount) (hlen : copyLen ≤ o.tOut) :
    copyStem o pos copyLen st acc =
      .ok (fun st' j =>
        if st' = st ∧ pos ≤ j ∧ j < pos + copyLen then
          (o.data st 0 (j - pos), o.data st 1 (j - pos))
        else acc st' j) := by
  revert hlen
  induction copyLen with
  | zero =>
      intro _
      rw [copyStem]
      simp only [List.range_zero, List.foldlM_nil]
      congr 1
      funext st' j
      rw [if_neg (by omega)]
  | succ cl ih =>
      intro hlen
      have h0 : arr3Get o st 0 cl = .ok (o.data st 0 cl) :=
        if_pos ⟨hst, by omega, by omega⟩
      have h1 : arr3Get o st 1 cl = .ok (o.data st 1 cl) :=
        if_pos ⟨hst, by omega, by omega⟩
      have ihh := ih (by omega)
      rw [copyStem] at ihh
      rw [copyStem, List.range_succ, List.foldlM_append, ihh, except_ok_bind,
        foldlM_singleton, copyOne, h0, except_ok_bind, h1, except_ok_bind]
      show Except.ok _ = Except.ok _
      congr 1
      funext st' j
      by_cases hij : st' = st ∧ j = pos + cl
      · rw [writeAcc, if_pos hij, if_pos ⟨hij.1, by omega, by omega⟩, hij.2,
          Nat.add_sub_cancel_left]
      · rw [writeAcc, if_neg hij]
        by_cases h2 : st' = st ∧ pos ≤ j ∧ j < pos + cl
        · rw [if_pos h2, if_pos ⟨h2.1, h2.2.1, by omega⟩]
        · rw [if_neg h2, if_neg ?_]
          rintro ⟨he, hp, hl⟩
          by_cases hj : j = pos + cl
          · exact hij ⟨he, hj⟩
          · exact h2 ⟨he, hp, by omega⟩

/-- Failing copy of a stem index at or past the engine's source count: the
very first `ndarray` read is out of bounds. -/
theorem copyStem_panic (o : EngineOut) (pos copyLen st : ℕ) (acc : Acc2)
    (hst : o.sCount ≤ st) (hlen : 0 < copyLen) :
    copyStem o pos copyLen st acc = .error .panicIndex := by
  obtain ⟨cl, rfl⟩ : ∃ cl, copyLen = cl + 1 := ⟨copyLen - 1, by omega⟩
  have herr : arr3Get o st 0 0 = .error .panicIndex := by
    rw [arr3Get, if_neg]
    rintro ⟨hc, -, -⟩
    omega
  rw [copyStem, List.range_succ_eq_map, List.foldlM_cons, copyOne, herr,
    except_error_bind, except_error_bind]

/-- A successful whole-window copy over `stems_count ≤ sCount` stems:
exactly the rectangle `st < stems_count`, `pos ≤ j < pos + copy_len` is
overwritten. -/
theorem copyWindow_ok (o : EngineOut) (pos copyLen sc : ℕ) (acc : Acc2)
    (hsc : sc ≤ o.sCount) (hlen : copyLen ≤ o.tOut) :
    copyWindow o pos copyLen sc acc =
      .ok (fun st j =>
        if st < sc ∧ pos ≤ j ∧ j < pos + copyLen then
          (o.data st 0 (j - pos), o.data st 1 (j - pos))
        else acc st j) := by
  revert hsc
  induction sc with
  | zero =>
      intro _
      rw [copyWindow]
      simp only [List.range_zero, List.foldlM_nil]
      congr 1
  | succ s ih =>
      intro hsc
      have ihh := ih (by omega)
      rw [copyWindow] at ihh
      rw [copyWindow, List.range_succ, List.foldlM_append, ihh, except_ok_bind,
        foldlM_singleton, copyStem_ok o pos copyLen s _ (by omega) hlen]
      congr 1
      funext st j
      by_cases h1 : st = s ∧ pos ≤ j ∧ j < pos + copyLen
      · rw [if_pos h1, if_pos ⟨by omega, h1.2.1, h1.2.2⟩, h1.1]
      · rw [if_neg h1]
        by_cases h2 : st < s ∧ pos ≤ j ∧ j < pos + copyLen
        · rw [if_pos h2, if_pos ⟨by omega, h2.2.1, h2.2.2⟩]
        · rw [if_neg h2, if_neg ?_]
          rintro ⟨hs, hp, hl⟩
          by_cases hss : st = s
          · exact h1 ⟨hss, hp, hl⟩
          · exact h2 ⟨by omega, hp, hl⟩

/-- Failing whole-window copy: when the loop's `stems_count` exceeds the
engine's source count and at least one sample is to be copied, the copy
panics on an out-of-bounds source index. -/
theorem copyWindow_panic (o : EngineOut) (pos copyLen sc : ℕ) (acc : Acc2)
    (hsc : o.sCount < sc) (hlen : 0 < copyLen) (hcl : copyLen ≤ o.tOut) :
    copyWindow o pos copyLen sc acc = .error .panicIndex := by
  revert hsc
  induction sc with
  | zero => intro hsc; omega
  | succ s ih =>
      intro hsc
      rw [copyWindow, List.range_succ, List.foldlM_append]
      by_cases hs : o.sCount < s
      · have := ih hs
        rw [copyWindow] at this
        rw [this, except_error_bind]
      · have hok := copyWindow_ok o pos copyLen s acc (by omega) hcl
        rw [copyWindow] at hok
        rw [hok, except_ok_bind, foldlM_singleton]
        exact copyStem_panic o pos copyLen s _ (by omega) hlen

/-! ### The write regions of the loop -/

/-- Explicit form of the write-region list: starting from `pos < n`, the loop
visits `pos, pos + hop, pos + 2·hop, …` and each visited position `p`
contributes the region `(p, min hop (n - p))` (the `t_out` clamp is inactive
when every window's time output has length at least `hop`). -/
theorem orchRegions_eq (n hop : ℕ) (tOut : ℕ → ℕ) (hhop : 0 < hop)
    (htOut : ∀ p, hop ≤ tOut p) :
    ∀ fuel pos, pos < n → n - pos ≤ fuel →
    orchRegions n hop tOut fuel pos =
      (List.range ((n - pos - 1) / hop + 1)).map
        (fun k => (pos + k * hop, min hop (n - (pos + k * hop)))) := by
  intro fuel
  induction fuel with
  | zero => intro pos h1 h2; omega
  | succ f ih =>
      intro pos h1 h2
      rw [orchRegions, if_pos h1]
      have hmin : min hop (min (tOut pos) (n - pos)) = min hop (n - pos) := by
        have := htOut pos; omega
      by_cases hend : n ≤ pos + hop
      · rw [if_pos hend]
        have hdiv : (n - pos - 1) / hop = 0 := Nat.div_eq_of_lt (by omega)
        rw [hdiv, hmin]
        simp [List.range_succ]
      · rw [if_neg hend]
        have hrec := ih (pos + hop) (by omega) (by omega)
        rw [hrec]
        have hdiv : (n - pos - 1) / hop = (n - (pos + hop) - 1) / hop + 1 := by
          have heq : n - pos - 1 = (n - (pos + hop) - 1) + hop := by omega
          rw [heq, Nat.add_div_right _ hhop]
        rw [hdiv]
        conv_rhs => rw [List.range_succ_eq_map, List.map_cons, List.map_map]
        congr 1
        · rw [hmin]; simp
        · apply List.map_congr_left
          intro k _
          simp only [Function.comp_apply]
          have harith : pos + hop + k * hop = pos + (k + 1) * hop := by ring
          rw [harith, Nat.succ_eq_add_one]

/-- **C1** — Partition coverage: for `N > 0`, `0 < hop ≤ window_length`, and
an engine whose per-source time output has length at least `hop` for every
window, the write regions produced by the orchestrator loop cover exactly
`[0, N)`: every `j < N` lies in some region, a position inside any region is
below `N`, and no two distinct regions overlap. -/
theorem claim_C1_partition (n win hop : ℕ) (tOut : ℕ → ℕ)
    (hhop : 0 < hop) (hwinhop : hop ≤ win) (hn : 0 < n)
    (htOut : ∀ p, hop ≤ tOut p) :
    (∀ j, j < n ↔ ∃ r ∈ orchRegions n hop tOut (n + 1) 0,
        r.1 ≤ j ∧ j < r.1 + r.2) ∧
    (∀ j r₁ r₂, r₁ ∈ orchRegions n hop tOut (n + 1) 0 →
      r₂ ∈ orchRegions n hop tOut (n + 1) 0 →
      r₁.1 ≤ j ∧ j < r₁.1 + r₁.2 → r₂.1 ≤ j ∧ j < r₂.1 + r₂.2 → r₁ = r₂) := by
  have hreg := orchRegions_eq n hop tOut hhop htOut (n + 1) 0 hn (by omega)
  have hcover : ∀ (k j : ℕ), k * hop ≤ j → j < k * hop + min hop (n - k * hop) →
      j < n ∧ j / hop = k := by
    intro k j hk1 hk2
    have hkk : k * hop ≤ n := by omega
    have hjn : j < n := by omega
    refine ⟨hjn, Nat.div_eq_of_lt_le hk1 ?_⟩
    have : (k + 1) * hop = k * hop + hop := by ring
    omega
  constructor
  · intro j
    constructor
    · intro hj
      refine ⟨(0 + (j / hop) * hop, min hop (n - (0 + (j / hop) * hop))), ?_, ?_⟩
      · rw [hreg]
        refine List.mem_map.mpr ⟨j / hop, List.mem_range.mpr ?_, rfl⟩
        have : j / hop ≤ (n - 0 - 1) / hop :=
          Nat.div_le_div_right (by omega)
        omega
      · have hmod := Nat.div_add_mod j hop
        have hlt : j % hop < hop := Nat.mod_lt _ hhop
        have h1 : (j / hop) * hop ≤ j := Nat.div_mul_le_self j hop
        have h2 : j < (j / hop) * hop + hop := by
          have : hop * (j / hop) = (j / hop) * hop := by ring
          omega
        simp only [Nat.zero_add]
        omega
    · rintro ⟨r, hr, hcov⟩
      rw [hreg] at hr
      obtain ⟨k, -, rfl⟩ := List.mem_map.mp hr
      simp only [Nat.zero_add] at hcov
      exact (hcover k j hcov.1 hcov.2).1
  · intro j r₁ r₂ hr₁ hr₂ hc₁ hc₂
    rw [hreg] at hr₁ hr₂
    obtain ⟨k₁, -, rfl⟩ := List.mem_map.mp hr₁
    obtain ⟨k₂, -, rfl⟩ := List.mem_map.mp hr₂
    simp only [Nat.zero_add] at hc₁ hc₂ ⊢
    have e₁ := (hcover k₁ j hc₁.1 hc₁.2).2
    have e₂ := (hcover k₂ j hc₂.1 hc₂.2).2
    rw [e₁.symm.trans e₂]

/-- Witness for C1 at `n = 5`, `win = 3`, `hop = 2`, constant `t_out = 3`. -/
theorem claim_C1_partition_witness :
    (∀ j, j < 5 ↔ ∃ r ∈ orchRegions 5 2 (fun _ => 3) 6 0,
        r.1 ≤ j ∧ j < r.1 + r.2) ∧
    (∀ j r₁ r₂, r₁ ∈ orchRegions 5 2 (fun _ => 3) 6 0 →
      r₂ ∈ orchRegions 5 2 (fun _ => 3) 6 0 →
      r₁.1 ≤ j ∧ j < r₁.1 + r₁.2 → r₂.1 ≤ j ∧ j < r₂.1 + r₂.2 → r₁ = r₂) :=
  claim_C1_partition 5 3 2 (fun _ => 3) (by omega) (by omega) (by omega)
    (fun p => by show 2 ≤ 3; omega)

/-! ### One iteration of the loop (window fill, clamped copy, advance) -/

theorem windowRaw_length (stereo : List (ℚ × ℚ)) (n win pos : ℕ) :
    (windowRaw stereo n win pos).1.length = win ∧
    (windowRaw stereo n win pos).2.length = win := by
  simp [windowRaw]

theorem windowRaw_getD (stereo : List (ℚ × ℚ)) (n win pos i : ℕ)
    (h : i < win) :
    (windowRaw stereo n win pos).1.getD i 0 =
      (if pos + i < n then (stereo.getD (pos + i) (0, 0)).1 else 0) ∧
    (windowRaw stereo n win pos).2.getD i 0 =
      (if pos + i < n then (stereo.getD (pos + i) (0, 0)).2 else 0) := by
  simp [windowRaw, List.getD_eq_getElem?_getD, List.getElem?_range, h]

/-- One unfolding of the loop at a non-first window with a successful engine
call. -/
theorem sepLoopAux_step (engine : Engine) (stereo : List (ℚ × ℚ))
    (n win hop fuel pos sc : ℕ) (acc : Acc2) (o : EngineOut)
    (hpos : pos < n)
    (heng : engine (windowRaw stereo n win pos).1
      (windowRaw stereo n win pos).2 = .ok o) :
    sepLoopAux engine stereo n win hop (fuel + 1) pos false sc acc =
      match copyWindow o pos (min hop (min o.tOut (n - pos))) sc acc with
      | .error e => .error e
      | .ok acc1 =>
          if n ≤ pos + hop then .ok (acc1, sc)
          else sepLoopAux engine stereo n win hop fuel (pos + hop) false sc acc1 := by
  rw [sepLoopAux, if_pos hpos]
  simp only [heng, Bool.false_eq_true, if_false]

/-- Step equation when the copy succeeds. -/
theorem sepLoopAux_step_ok (engine : Engine) (stereo : List (ℚ × ℚ))
    (n win hop fuel pos sc : ℕ) (acc : Acc2) (o : EngineOut)
    (hpos : pos < n)
    (heng : engine (windowRaw stereo n win pos).1
      (windowRaw stereo n win pos).2 = .ok o)
    (acc1 : Acc2)
    (hcw : copyWindow o pos (min hop (min o.tOut (n - pos))) sc acc =
      .ok acc1) :
    sepLoopAux engine stereo n win hop (fuel + 1) pos false sc acc =
      if n ≤ pos + hop then .ok (acc1, sc)
      else sepLoopAux engine stereo n win hop fuel (pos + hop) false sc acc1 := by
  rw [sepLoopAux_step engine stereo n win hop fuel pos sc acc o hpos heng, hcw]

/-- Step equation when the copy fails. -/
theorem sepLoopAux_step_err (engine : Engine) (stereo : List (ℚ × ℚ))
    (n win hop fuel pos sc : ℕ) (acc : Acc2) (o : EngineOut)
    (hpos : pos < n)
    (heng : engine (windowRaw stereo n win pos).1
      (windowRaw stereo n win pos).2 = .ok o)
    (e : Err)
    (hcw : copyWindow o pos (min hop (min o.tOut (n - pos))) sc acc =
      .error e) :
    sepLoopAux engine stereo n win hop (fuel + 1) pos false sc acc =
      .error e := by
  rw [sepLoopAux_step engine stereo n win hop fuel pos sc acc o hpos heng, hcw]

/-- One unfolding of the loop at the first window with a successful engine
call: the stem count is discovered and the fresh zero accumulators are
allocated before the copy. -/
theorem sepLoopAux_step_first (engine : Engine) (stereo : List (ℚ × ℚ))
    (n win hop fuel pos sc : ℕ) (acc : Acc2) (o : EngineOut)
    (hpos : pos < n)
    (heng : engine (windowRaw stereo n win pos).1
      (windowRaw stereo n win pos).2 = .ok o) :
    sepLoopAux engine stereo n win hop (fuel + 1) pos true sc acc =
      match copyWindow o pos (min hop (min o.tOut (n - pos))) o.sCount
          (fun _ _ => ((0 : ℚ), (0 : ℚ))) with
      | .error e => .error e
      | .ok acc1 =>
          if n ≤ pos + hop then .ok (acc1, o.sCount)
          else sepLoopAux engine stereo n win hop fuel (pos + hop) false
            o.sCount acc1 := by
  rw [sepLoopAux, if_pos hpos]
  simp only [heng, if_true]

/-- **C2** — One iteration of the orchestrator loop at position `pos < N`
(with `hop ≤ t_out` for the returned output and loop stem count within the
engine's source count): (a) the window slice has length `window_length`, is
filled from the input and zero-padded past the signal end; (b) the copy
writes exactly the first `hop` samples of each source — clamped to `N - pos`
— into the accumulators at `pos`, not the full window; (c) the loop then
terminates exactly when `pos + hop ≥ N`, and otherwise recurses with the
position advanced by exactly `hop`. -/
theorem claim_C2_iteration (engine : Engine) (stereo : List (ℚ × ℚ))
    (n win hop fuel pos sc : ℕ) (acc : Acc2) (o : EngineOut)
    (hpos : pos < n)
    (heng : engine (windowRaw stereo n win pos).1
      (windowRaw stereo n win pos).2 = .ok o)
    (htOut : hop ≤ o.tOut) (hsc : sc ≤ o.sCount) :
    ((windowRaw stereo n win pos).1.length = win ∧
     (windowRaw stereo n win pos).2.length = win ∧
     ∀ i, i < win →
       (windowRaw stereo n win pos).1.getD i 0 =
         (if pos + i < n then (stereo.getD (pos + i) (0, 0)).1 else 0) ∧
       (windowRaw stereo n win pos).2.getD i 0 =
         (if pos + i < n then (stereo.getD (pos + i) (0, 0)).2 else 0)) ∧
    (∃ acc', copyWindow o pos (min hop (min o.tOut (n - pos))) sc acc = .ok acc' ∧
      (∀ st j, acc' st j =
        if st < sc ∧ pos ≤ j ∧ j < pos + min hop (n - pos) then
          (o.data st 0 (j - pos), o.data st 1 (j - pos))
        else acc st j) ∧
      (n ≤ pos + hop →
        sepLoopAux engine stereo n win hop (fuel + 1) pos false sc acc =
          .ok (acc', sc)) ∧
      (pos + hop < n →
        sepLoopAux engine stereo n win hop (fuel + 1) pos false sc acc =
          sepLoopAux engine stereo n win hop fuel (pos + hop) false sc acc')) := by
  have hclamp : min hop (min o.tOut (n - pos)) = min hop (n - pos) := by omega
  have hcw := copyWindow_ok o pos (min hop (min o.tOut (n - pos))) sc acc hsc
    (by omega)
  refine ⟨⟨(windowRaw_length stereo n win pos).1,
    (windowRaw_length stereo n win pos).2,
    fun i hi => windowRaw_getD stereo n win pos i hi⟩,
    ⟨fun st j =>
      if st < sc ∧ pos ≤ j ∧ j < pos + min hop (min o.tOut (n - pos)) then
        (o.data st 0 (j - pos), o.data st 1 (j - pos))
      else acc st j, hcw, ?_, ?_, ?_⟩⟩
  · intro st j
    rw [hclamp]
  · intro hend
    rw [sepLoopAux_step engine stereo n win hop fuel pos sc acc o hpos heng]
    simp only [hcw]
    rw [if_pos hend]
  · intro hcont
    rw [sepLoopAux_step engine stereo n win hop fuel pos sc acc o hpos heng]
    simp only [hcw]
    rw [if_neg (by omega)]

/-- Witness for C2: a three-sample signal, `win = hop = 2`, a constant
single-source engine. -/
theorem claim_C2_iteration_witness :
    (0 : ℕ) < 3 ∧
    ∃ acc', copyWindow ⟨1, 2, fun _ _ _ => 5⟩ 0 (min 2 (min 2 (3 - 0))) 1
      (fun _ _ => ((0 : ℚ), (0 : ℚ))) = .ok acc' := by
  have h := claim_C2_iteration (fun _ _ => .ok ⟨1, 2, fun _ _ _ => 5⟩)
    [(1, 1), (2, 2), (3, 3)] 3 2 2 4 0 1 (fun _ _ => (0, 0))
    ⟨1, 2, fun _ _ _ => 5⟩ (by omega) rfl
    (by show (2 : ℕ) ≤ 2; omega) (by show (1 : ℕ) ≤ 1; omega)
  obtain ⟨-, acc', hcw, -⟩ := h
  exact ⟨by omega, acc', hcw⟩

/-! ### Stem-count discovery across windows (C4) -/

/-- Engine for the C4 counterexample: the first window (whose slice starts
with sample value 1) reports 2 sources, any other window reports 3. -/
def c4Engine : Engine := fun l _ =>
  if l.getD 0 0 = 1 then .ok ⟨2, 2, fun _ _ _ => 0⟩
  else .ok ⟨3, 2, fun _ _ _ => 0⟩

/-- Four-sample input for the C4 counterexample. -/
def c4Stereo : List (ℚ × ℚ) := [(1, 1), (2, 2), (3, 3), (4, 4)]

/-- **C4 counterexample** — with `win = hop = 2` over four samples, the first
window reports `S = 2` sources and the second window reports `S' = 3 ≠ 2`,
yet the run completes successfully (the extra source is silently ignored):
a mid-run stem-count change does not cause a fatal error. -/
theorem claim_C4_counterexample :
    (∃ o₁, c4Engine (windowRaw c4Stereo 4 2 0).1 (windowRaw c4Stereo 4 2 0).2 =
        .ok o₁ ∧ o₁.sCount = 2) ∧
    (∃ o₂, c4Engine (windowRaw c4Stereo 4 2 2).1 (windowRaw c4Stereo 4 2 2).2 =
        .ok o₂ ∧ o₂.sCount = 3) ∧
    (separate_stems_internal ⟨44100, 2, 2, []⟩ c4Stereo c4Engine).isOk = true :=
  ⟨⟨⟨2, 2, fun _ _ _ => 0⟩, rfl, rfl⟩, ⟨⟨3, 2, fun _ _ _ => 0⟩, rfl, rfl⟩, rfl⟩

/-- If the loop (past the first window, stem count fixed at `sc`) completes
successfully, every window it visits reports at least `sc` sources. -/
theorem sepLoop_ok_sCount_mono (eng : List ℚ → List ℚ → EngineOut)
    (stereo : List (ℚ × ℚ)) (n win hop : ℕ) (hhop : 0 < hop)
    (htOut : ∀ l r, hop ≤ (eng l r).tOut) :
    ∀ fuel pos sc acc res,
      sepLoopAux (fun l r => .ok (eng l r)) stereo n win hop fuel pos false
        sc acc = .ok res →
      ∀ m, pos + m * hop < n →
        sc ≤ (eng (windowRaw stereo n win (pos + m * hop)).1
          (windowRaw stereo n win (pos + m * hop)).2).sCount := by
  intro fuel
  induction fuel with
  | zero =>
      intro pos sc acc res h
      rw [sepLoopAux] at h
      exact Except.noConfusion h
  | succ f ih =>
      intro pos sc acc res h m hm
      have hpos : pos < n := by
        have : pos ≤ pos + m * hop := Nat.le_add_right ..
        omega
      set o := eng (windowRaw stereo n win pos).1
        (windowRaw stereo n win pos).2 with ho
      have htpos : hop ≤ o.tOut :=
        htOut (windowRaw stereo n win pos).1 (windowRaw stereo n win pos).2
      by_cases hsc : sc ≤ o.sCount
      · have hcw := copyWindow_ok o pos (min hop (min o.tOut (n - pos))) sc acc
          hsc (by omega)
        rw [sepLoopAux_step_ok (fun l r => .ok (eng l r)) stereo n win hop
          f pos sc acc o hpos rfl _ hcw] at h
        cases m with
        | zero =>
            simp only [Nat.zero_mul, Nat.add_zero]
            rw [← ho]
            exact hsc
        | succ m' =>
            by_cases hend : n ≤ pos + hop
            · exfalso
              have h1 : (m' + 1) * hop = m' * hop + hop := by ring
              omega
            · rw [if_neg hend] at h
              have harith : pos + hop + m' * hop = pos + (m' + 1) * hop := by
                ring
              have := ih (pos + hop) sc _ res h m' (by omega)
              rwa [harith] at this
      · have hcl : 0 < min hop (min o.tOut (n - pos)) := by omega
        have hcw := copyWindow_panic o pos (min hop (min o.tOut (n - pos))) sc
          acc (by omega) hcl (by omega)
        rw [sepLoopAux_step_err (fun l r => .ok (eng l r)) stereo n win hop
          f pos sc acc o hpos rfl _ hcw] at h
        exact Except.noConfusion h

/-- Conversely, when every window the loop will visit reports at least `sc`
sources (and time outputs cover `hop`), the loop completes successfully. -/
theorem sepLoop_ok_of_sCount_mono (eng : List ℚ → List ℚ → EngineOut)
    (stereo : List (ℚ × ℚ)) (n win hop : ℕ) (hhop : 0 < hop)
    (htOut : ∀ l r, hop ≤ (eng l r).tOut) :
    ∀ fuel pos sc acc, pos < n → n - pos ≤ fuel →
      (∀ m, pos + m * hop < n →
        sc ≤ (eng (windowRaw stereo n win (pos + m * hop)).1
          (windowRaw stereo n win (pos + m * hop)).2).sCount) →
      ∃ res, sepLoopAux (fun l r => .ok (eng l r)) stereo n win hop fuel pos
        false sc acc = .ok res := by
  intro fuel
  induction fuel with
  | zero => intro pos sc acc hpos hfuel _; omega
  | succ f ih =>
      intro pos sc acc hpos hfuel hall
      set o := eng (windowRaw stereo n win pos).1
        (windowRaw stereo n win pos).2 with ho
      have htpos : hop ≤ o.tOut :=
        htOut (windowRaw stereo n win pos).1 (windowRaw stereo n win pos).2
      have hsc : sc ≤ o.sCount := by
        have := hall 0 (by omega)
        simp only [Nat.zero_mul, Nat.add_zero] at this
        rwa [← ho] at this
      have hcw := copyWindow_ok o pos (min hop (min o.tOut (n - pos))) sc acc
        hsc (by omega)
      rw [sepLoopAux_step_ok (fun l r => .ok (eng l r)) stereo n win hop
        f pos sc acc o hpos rfl _ hcw]
      by_cases hend : n ≤ pos + hop
      · rw [if_pos hend]
        exact ⟨_, rfl⟩
      · rw [if_neg hend]
        refine ih (pos + hop) sc _ (by omega) (by omega) ?_
        intro m hm
        have harith : pos + hop + m * hop = pos + (m + 1) * hop := by ring
        rw [harith] at hm ⊢
        exact hall (m + 1) hm

/-- First-window step equation when the copy succeeds. -/
theorem sepLoopAux_step_first_ok (engine : Engine) (stereo : List (ℚ × ℚ))
    (n win hop fuel pos sc : ℕ) (acc : Acc2) (o : EngineOut)
    (hpos : pos < n)
    (heng : engine (windowRaw stereo n win pos).1
      (windowRaw stereo n win pos).2 = .ok o)
    (acc1 : Acc2)
    (hcw : copyWindow o pos (min hop (min o.tOut (n - pos))) o.sCount
      (fun _ _ => ((0 : ℚ), (0 : ℚ))) = .ok acc1) :
    sepLoopAux engine stereo n win hop (fuel + 1) pos true sc acc =
      if n ≤ pos + hop then .ok (acc1, o.sCount)
      else sepLoopAux engine stereo n win hop fuel (pos + hop) false
        o.sCount acc1 := by
  rw [sepLoopAux_step_first engine stereo n win hop fuel pos sc acc o hpos heng,
    hcw]

/-- Unfolding of `separate_stems_internal` when all configuration checks
pass. -/
theorem separate_stems_internal_unfold (win hop : ℕ) (stemNames : List String)
    (stereo : List (ℚ × ℚ)) (engine : Engine)
    (hn : 0 < stereo.length) (hhop : 0 < hop) (hwin : hop ≤ win) :
    separate_stems_internal ⟨44100, win, hop, stemNames⟩ stereo engine =
      match sepLoopAux engine stereo stereo.length win hop (stereo.length + 1)
          0 true (max stemNames.length 1) (fun _ _ => (0, 0)) with
      | .error e => .error e
      | .ok (acc, sc) =>
          .ok ⟨acc, sc,
            buildNameIdx
              (if stemNames.isEmpty then defaultStemNames else stemNames),
            44100, stereo.length⟩ := by
  rw [separate_stems_internal]
  rw [if_neg (by simp)]
  show (if stereo.length = 0 then _ else _) = _
  rw [if_neg (by omega),
    if_neg (by push_neg; exact ⟨lt_of_lt_of_le hhop hwin, hhop, hwin⟩)]

/-- **C4 (amended)** — The orchestrator performs no stem-count equality
check.  Once the first window establishes `S`, a run (with engine calls that
always return, with time outputs covering `hop`) completes successfully
exactly when no subsequent window reports *fewer* than `S` sources: a window
reporting `S' < S` makes the run fail (with an out-of-bounds read of the
engine output), while a window reporting `S' > S` does not fail — its extra
sources are silently ignored. -/
theorem claim_C4_amended (eng : List ℚ → List ℚ → EngineOut)
    (stereo : List (ℚ × ℚ)) (win hop : ℕ) (stemNames : List String)
    (hhop : 0 < hop) (hwin : hop ≤ win) (hn : 0 < stereo.length)
    (htOut : ∀ l r, hop ≤ (eng l r).tOut) :
    (∃ res, separate_stems_internal ⟨44100, win, hop, stemNames⟩ stereo
        (fun l r => .ok (eng l r)) = .ok res) ↔
      (∀ k, k * hop < stereo.length →
        (eng (windowRaw stereo stereo.length win 0).1
          (windowRaw stereo stereo.length win 0).2).sCount ≤
        (eng (windowRaw stereo stereo.length win (k * hop)).1
          (windowRaw stereo stereo.length win (k * hop)).2).sCount) := by
  set n := stereo.length with hnn
  set engT : Engine := fun l r => .ok (eng l r) with hengT
  set o₀ := eng (windowRaw stereo n win 0).1 (windowRaw stereo n win 0).2
    with ho₀
  have hcw₀ := copyWindow_ok o₀ 0 (min hop (min o₀.tOut (n - 0))) o₀.sCount
    (fun _ _ => ((0 : ℚ), (0 : ℚ))) (le_refl _) (by omega)
  have hstep := sepLoopAux_step_first_ok engT stereo n win hop n 0
    (max stemNames.length 1) (fun _ _ => (0, 0)) o₀ (by omega) rfl _ hcw₀
  have hunfold := separate_stems_internal_unfold win hop stemNames stereo engT
    hn hhop hwin
  constructor
  · rintro ⟨res, hres⟩ k hk
    rw [hunfold] at hres
    cases hl : sepLoopAux engT stereo n win hop (n + 1) 0 true
        (max stemNames.length 1) (fun _ _ => (0, 0)) with
    | error e =>
        rw [hl] at hres
        exact Except.noConfusion hres
    | ok p =>
        rw [hstep] at hl
        cases k with
        | zero =>
            simp only [Nat.zero_mul]
            rw [← ho₀]
        | succ k' =>
            by_cases hend : n ≤ 0 + hop
            · exfalso
              have h1 : (k' + 1) * hop = k' * hop + hop := by ring
              omega
            · rw [if_neg hend] at hl
              have harith : 0 + hop + k' * hop = (k' + 1) * hop := by ring
              have hm := sepLoop_ok_sCount_mono eng stereo n win hop hhop htOut
                n (0 + hop) o₀.sCount _ p hl k' (by rw [harith]; exact hk)
              rwa [harith] at hm
  · intro hall
    rw [hunfold]
    by_cases hend : n ≤ 0 + hop
    · rw [hstep, if_pos hend]
      exact ⟨_, rfl⟩
    · rw [hstep, if_neg hend]
      have hmono : ∀ m, 0 + hop + m * hop < n →
          o₀.sCount ≤ (eng (windowRaw stereo n win (0 + hop + m * hop)).1
            (windowRaw stereo n win (0 + hop + m * hop)).2).sCount := by
        intro m hm
        have harith : 0 + hop + m * hop = (m + 1) * hop := by ring
        rw [harith] at hm ⊢
        exact hall (m + 1) hm
      obtain ⟨res', hres'⟩ := sepLoop_ok_of_sCount_mono eng stereo n win hop
        hhop htOut n (0 + hop) o₀.sCount _ (by omega) (by omega) hmono
      rw [hres']
      exact ⟨_, rfl⟩

/-- Witness for the amended C4 at a constant four-source engine: the run
succeeds. -/
theorem claim_C4_amended_witness :
    ∃ res, separate_stems_internal ⟨44100, 2, 2, []⟩ [(1, 1), (2, 2), (3, 3)]
      (fun l r => .ok ((fun _ _ => (⟨4, 2, fun _ _ _ => 0⟩ : EngineOut)) l r)) =
        .ok res := by
  refine (claim_C4_amended (fun _ _ => ⟨4, 2, fun _ _ _ => 0⟩)
    [(1, 1), (2, 2), (3, 3)] 2 2 [] (by omega) (by omega) (by decide)
    (fun _ _ => by show (2 : ℕ) ≤ 2; omega)).mpr ?_
  intro k hk
  exact le_refl _

/-! ### Which errors the loop can produce (C8) -/

theorem arr3Get_error (o : EngineOut) (st c i : ℕ) (e : Err)
    (h : arr3Get o st c i = .error e) : e = .panicIndex := by
  rw [arr3Get] at h
  split at h
  · exact Except.noConfusion h
  · cases h; rfl

theorem copyOne_error (o : EngineOut) (pos st i : ℕ) (acc : Acc2) (e : Err)
    (h : copyOne o pos st i acc = .error e) : e = .panicIndex := by
  rw [copyOne] at h
  cases h0 : arr3Get o st 0 i with
  | error e0 =>
      rw [h0] at h
      cases h
      exact arr3Get_error o st 0 i _ h0
  | ok l =>
      rw [h0] at h
      cases h1 : arr3Get o st 1 i with
      | error e1 =>
          rw [h1] at h
          cases h
          exact arr3Get_error o st 1 i _ h1
      | ok r =>
          rw [h1] at h
          exact Except.noConfusion h

theorem foldlM_error_panic {α : Type} (f : α → ℕ → Except Err α)
    (hf : ∀ a x e, f a x = .error e → e = .panicIndex) :
    ∀ (l : List ℕ) (a : α) (e : Err),
      l.foldlM f a = .error e → e = .panicIndex := by
  intro l
  induction l with
  | nil =>
      intro a e h
      exact Except.noConfusion h
  | cons x xs ih =>
      intro a e h
      rw [List.foldlM_cons] at h
      cases hx : f a x with
      | error e0 =>
          rw [hx] at h
          cases h
          exact hf a x _ hx
      | ok b =>
          rw [hx] at h
          exact ih b e h

theorem copyStem_error (o : EngineOut) (pos copyLen st : ℕ) (acc : Acc2)
    (e : Err) (h : copyStem o pos copyLen st acc = .error e) :
    e = .panicIndex :=
  foldlM_error_panic _ (fun a i e0 he => copyOne_error o pos st i a e0 he)
    (List.range copyLen) acc e h

theorem copyWindow_error (o : EngineOut) (pos copyLen sc : ℕ) (acc : Acc2)
    (e : Err) (h : copyWindow o pos copyLen sc acc = .error e) :
    e = .panicIndex :=
  foldlM_error_panic _ (fun a st e0 he => copyStem_error o pos copyLen st a e0 he)
    (List.range sc) acc e h

/-- Step equation when the engine call itself fails. -/
theorem sepLoopAux_step_engerr (engine : Engine) (stereo : List (ℚ × ℚ))
    (n win hop fuel pos : ℕ) (fc : Bool) (sc : ℕ) (acc : Acc2)
    (hpos : pos < n) (e : Err)
    (heng : engine (windowRaw stereo n win pos).1
      (windowRaw stereo n win pos).2 = .error e) :
    sepLoopAux engine stereo n win hop (fuel + 1) pos fc sc acc = .error e := by
  rw [sepLoopAux, if_pos hpos]
  simp only [heng]

/-- Every error the loop can produce is an out-of-bounds panic, fuel
exhaustion, or an error returned by the engine itself: the loop performs no
configuration checks. -/
theorem sepLoopAux_error_cases (engine : Engine) (stereo : List (ℚ × ℚ))
    (n win hop : ℕ) :
    ∀ fuel pos fc sc acc e,
      sepLoopAux engine stereo n win hop fuel pos fc sc acc = .error e →
      e = .panicIndex ∨ e = .outOfFuel ∨ ∃ l r, engine l r = .error e := by
  intro fuel
  induction fuel with
  | zero =>
      intro pos fc sc acc e h
      rw [sepLoopAux] at h
      cases h
      exact Or.inr (Or.inl rfl)
  | succ f ih =>
      intro pos fc sc acc e h
      by_cases hpos : pos < n
      · cases heng : engine (windowRaw stereo n win pos).1
            (windowRaw stereo n win pos).2 with
        | error e' =>
            rw [sepLoopAux_step_engerr engine stereo n win hop f pos fc sc acc
              hpos e' heng] at h
            cases h
            exact Or.inr (Or.inr ⟨_, _, heng⟩)
        | ok o =>
            cases fc with
            | true =>
                rw [sepLoopAux_step_first engine stereo n win hop f pos sc acc
                  o hpos heng] at h
                cases hcw : copyWindow o pos (min hop (min o.tOut (n - pos)))
                    o.sCount (fun _ _ => ((0 : ℚ), (0 : ℚ))) with
                | error e2 =>
                    simp only [hcw] at h
                    cases h
                    exact Or.inl (copyWindow_error o pos _ o.sCount _ _ hcw)
                | ok acc1 =>
                    simp only [hcw] at h
                    by_cases hend : n ≤ pos + hop
                    · rw [if_pos hend] at h
                      exact Except.noConfusion h
                    · rw [if_neg hend] at h
                      exact ih (pos + hop) false o.sCount acc1 e h
            | false =>
                rw [sepLoopAux_step engine stereo n win hop f pos sc acc
                  o hpos heng] at h
                cases hcw : copyWindow o pos (min hop (min o.tOut (n - pos)))
                    sc acc with
                | error e2 =>
                    simp only [hcw] at h
                    cases h
                    exact Or.inl (copyWindow_error o pos _ sc _ _ hcw)
                | ok acc1 =>
                    simp only [hcw] at h
                    by_cases hend : n ≤ pos + hop
                    · rw [if_pos hend] at h
                      exact Except.noConfusion h
                    · rw [if_neg hend] at h
                      exact ih (pos + hop) false sc acc1 e h
      · rw [sepLoopAux, if_neg hpos] at h
        exact Except.noConfusion h

/-- Unfolding of `separate_stems_internal` for a general manifest whose
configuration checks pass. -/
theorem separate_stems_internal_unfold_mf (mf : ModelManifest)
    (stereo : List (ℚ × ℚ)) (engine : Engine)
    (h44 : mf.sample_rate = 44100) (hn : 0 < stereo.length)
    (hhop : 0 < mf.hop) (hwin : mf.hop ≤ mf.window) :
    separate_stems_internal mf stereo engine =
      match sepLoopAux engine stereo stereo.length mf.window mf.hop
          (stereo.length + 1) 0 true (max mf.stems.length 1)
          (fun _ _ => (0, 0)) with
      | .error e => .error e
      | .ok (acc, sc) =>
          .ok ⟨acc, sc,
            buildNameIdx
              (if mf.stems.isEmpty then defaultStemNames else mf.stems),
            mf.sample_rate, stereo.length⟩ := by
  rw [separate_stems_internal, if_neg (not_not_intro h44)]
  show (if stereo.length = 0 then _ else _) = _
  rw [if_neg (by omega),
    if_neg (by push_neg; exact ⟨lt_of_lt_of_le hhop hwin, hhop, hwin⟩)]

/-- **C8** — Configuration checks: `separate_stems_internal` fails with the
corresponding configuration error — independently of the engine, hence
before any inference — whenever the manifest sample rate differs from 44100,
or the planar-stereo input is empty, or the manifest window/hop violate
`0 < hop ≤ window`; and when all three conditions hold, none of these three
checks fails (the run can only fail for engine or indexing reasons). -/
theorem claim_C8_config (mf : ModelManifest) (stereo : List (ℚ × ℚ)) :
    (mf.sample_rate ≠ 44100 →
      ∀ engine : Engine,
        separate_stems_internal mf stereo engine = .error .badSampleRate) ∧
    (mf.sample_rate = 44100 → stereo.length = 0 →
      ∀ engine : Engine,
        separate_stems_internal mf stereo engine = .error .emptyAudio) ∧
    (mf.sample_rate = 44100 → 0 < stereo.length →
      ¬(0 < mf.window ∧ 0 < mf.hop ∧ mf.hop ≤ mf.window) →
      ∀ engine : Engine,
        separate_stems_internal mf stereo engine = .error .badWinHop) ∧
    (mf.sample_rate = 44100 → 0 < stereo.length →
      0 < mf.hop → mf.hop ≤ mf.window →
      ∀ engine : Engine,
        (∀ l r e, engine l r = .error e →
          e ≠ .badSampleRate ∧ e ≠ .emptyAudio ∧ e ≠ .badWinHop) →
        separate_stems_internal mf stereo engine ≠ .error .badSampleRate ∧
        separate_stems_internal mf stereo engine ≠ .error .emptyAudio ∧
        separate_stems_internal mf stereo engine ≠ .error .badWinHop) := by
  refine ⟨?_, ?_, ?_, ?_⟩
  · intro h44 engine
    rw [separate_stems_internal, if_pos h44]
  · intro h44 hlen engine
    rw [separate_stems_internal, if_neg (not_not_intro h44)]
    show (if stereo.length = 0 then _ else _) = _
    rw [if_pos hlen]
  · intro h44 hlen hbad engine
    rw [separate_stems_internal, if_neg (not_not_intro h44)]
    show (if stereo.length = 0 then _ else _) = _
    rw [if_neg (by omega), if_pos hbad]
  · intro h44 hlen hhop hwin engine hengerr
    have hu := separate_stems_internal_unfold_mf mf stereo engine h44 hlen
      hhop hwin
    cases hl : sepLoopAux engine stereo stereo.length mf.window mf.hop
        (stereo.length + 1) 0 true (max mf.stems.length 1)
        (fun _ _ => (0, 0)) with
    | ok p =>
        rw [hu, hl]
        cases p with
        | mk acc sc => exact ⟨by simp, by simp, by simp⟩
    | error e =>
        rw [hu, hl]
        rcases sepLoopAux_error_cases engine stereo stereo.length mf.window
            mf.hop _ _ _ _ _ _ hl with h | h | ⟨l, r, hlr⟩
        · subst h
          exact ⟨by simp, by simp, by simp⟩
        · subst h
          exact ⟨by simp, by simp, by simp⟩
        · obtain ⟨ha, hb, hc⟩ := hengerr l r e hlr
          refine ⟨fun heq => ?_, fun heq => ?_, fun heq => ?_⟩
          · exact ha (Except.error.inj heq)
          · exact hb (Except.error.inj heq)
          · exact hc (Except.error.inj heq)

/-- Witness for C8: a wrong-rate manifest fails with the sample-rate error;
a well-configured manifest cannot fail with a configuration error. -/
theorem claim_C8_config_witness :
    separate_stems_internal ⟨48000, 2, 2, []⟩ [(1, 1)]
      (fun _ _ => .error .engineFail) = .error .badSampleRate ∧
    separate_stems_internal ⟨44100, 2, 2, []⟩ [(1, 1)]
      (fun _ _ => .error .engineFail) ≠ .error .badWinHop := by
  constructor
  · exact (claim_C8_config ⟨48000, 2, 2, []⟩ [(1, 1)]).1 (by decide) _
  · exact ((claim_C8_config ⟨44100, 2, 2, []⟩ [(1, 1)]).2.2.2 rfl (by decide)
      (by decide) (by decide) _ (fun l r e he => by
        cases he; exact ⟨by decide, by decide, by decide⟩)).2.2

/-! ## The engine adapter (`run_window_demucs`, `src/core/engine.rs`) -/

/-- Fixed geometry of the htdemucs ONNX graph (`engine.rs` constants). -/
def DEMUCS_T : ℕ := 343980

def DEMUCS_F : ℕ := 2048

def DEMUCS_FRAMES : ℕ := 336

def DEMUCS_NFFT : ℕ := 4096

def DEMUCS_HOP : ℕ := 1024

/-- An ONNX runtime tensor value: `i64` shape and flat `f32` data. -/
structure TensorVal where
  shape : List ℤ
  data : List ℚ

/-- The loaded ONNX session, abstracted to its declared input names and its
run function over named tensors. -/
structure Session where
  inputs : List String
  run : List (String × TensorVal) → Except Err (List (String × TensorVal))

/-- `i64` slice indexing (`shape[i]`): panics out of bounds. -/
def idxI (l : List ℤ) (i : ℕ) : Except Err ℤ :=
  if i < l.length then .ok (l.getD i 0) else .error .panicIndex

/-- The output scan `for (name, val) in outputs { if name == "output" {...}
else if name == "add_67" {...} }`: the last binding of each name wins. -/
def findOutputs (outputs : List (String × TensorVal)) :
    Option TensorVal × Option TensorVal :=
  outputs.foldl
    (fun acc p =>
      if p.1 = "output" then (some p.2, acc.2)
      else if p.1 = "add_67" then (acc.1, some p.2)
      else acc)
    (none, none)

/-- The short-circuiting frequency-output shape validation
(`shape_freq[0] != 1 || shape_freq[1] != num_sources as i64 || ...`),
indexing panics included. -/
def validateFreqShape (shape_freq : List ℤ) (ns fb fr : ℕ) :
    Except Err Unit := do
  let s0 ← idxI shape_freq 0
  if s0 ≠ 1 then .error .freqShape else
  let s1 ← idxI shape_freq 1
  if s1 ≠ (ns : ℤ) then .error .freqShape else
  let s2 ← idxI shape_freq 2
  if s2 ≠ 4 then .error .freqShape else
  let s3 ← idxI shape_freq 3
  if s3 ≠ (fb : ℤ) then .error .freqShape else
  let s4 ← idxI shape_freq 4
  if s4 ≠ (fr : ℤ) then .error .freqShape else .ok ()

/-- The combining loop: for each source (paired with its decoded frequency
branch), push the `t` left sums `left_time[i] + left_freq[i]`, then the `t`
right sums; slice and index panics are modelled as errors. -/
def combineSources (data_time : List ℚ) (t : ℕ) :
    ℕ → List (List ℚ × List ℚ) → Except Err (List ℚ)
  | _, [] => .ok []
  | src, (lf, rf) :: rest =>
      if data_time.length < src * 2 * t + 2 * t then .error .panicIndex
      else if lf.length < t ∨ rf.length < t then .error .panicIndex
      else
        match combineSources data_time t (src + 1) rest with
        | .error e => .error e
        | .ok tail =>
            let lt := (data_time.drop (src * 2 * t)).take t
            let rt := (data_time.drop (src * 2 * t + t)).take t
            let comb :=
              (List.range t).map (fun i => lt.getD i 0 + lf.getD i 0) ++
              (List.range t).map (fun i => rt.getD i 0 + rf.getD i 0)
            .ok (comb ++ tail)

/-- `run_window_demucs`: length checks, forward transform (the `stft`
parameter stands for the external `dsp::stft_cac_stereo_centered`),
spectrogram-dimension validation, named-input lookup, session run,
named-output extraction, shape validation, per-source inverse transform (the
`istft` parameter stands for `dsp::istft_cac_stereo_parallel`), and the
elementwise time+frequency combination, packed as an `Array3` of shape
`(num_sources, 2, t)`. -/
def run_window_demucs
    (stft : List ℚ → List ℚ → ℕ → ℕ → List ℚ × ℕ × ℕ)
    (istft : List (List ℚ) → ℕ → ℕ → ℕ → ℕ → ℕ → List (List ℚ × List ℚ))
    (sess : Session) (left right : List ℚ) : Except Err EngineOut :=
  if left.length ≠ right.length then .error .lrMismatch
  else
    let t := left.length
    if t ≠ DEMUCS_T then .error .badWindowLen
    else
      let planar := left ++ right
      let time_value : TensorVal := ⟨[1, 2, (t : ℤ)], planar⟩
      let s := stft left right DEMUCS_NFFT DEMUCS_HOP
      let spec_cac := s.1
      let f_bins := s.2.1
      let frames := s.2.2
      if f_bins ≠ DEMUCS_F ∨ frames ≠ DEMUCS_FRAMES then .error .specDims
      else
        let spec_value : TensorVal := ⟨[1, 4, (f_bins : ℤ), (frames : ℤ)], spec_cac⟩
        if "input" ∈ sess.inputs then
          if "x" ∈ sess.inputs then
            match sess.run [("input", time_value), ("x", spec_value)] with
            | .error _ => .error .engineFail
            | .ok outputs =>
                match findOutputs outputs with
                | (none, _) => .error .missingOutputFreq
                | (some _, none) => .error .missingOutputTime
                | (some ofreq, some otime) =>
                    match idxI otime.shape 1 with
                    | .error e => .error e
                    | .ok s1 =>
                        let num_sources := s1.toNat
                        match validateFreqShape ofreq.shape num_sources
                            f_bins frames with
                        | .error e => .error e
                        | .ok _ =>
                            if 0 < num_sources ∧
                                ofreq.data.length <
                                  num_sources * 4 * f_bins * frames then
                              .error .panicIndex
                            else
                              let source_specs := (List.range num_sources).map
                                (fun src =>
                                  (ofreq.data.drop (src * (4 * f_bins * frames))).take
                                    (4 * f_bins * frames))
                              let ir := istft source_specs f_bins frames
                                DEMUCS_NFFT DEMUCS_HOP t
                              match combineSources otime.data t 0 ir with
                              | .error e => .error e
                              | .ok result =>
                                  if result.length = num_sources * 2 * t then
                                    .ok ⟨num_sources, t,
                                      fun st c i =>
                                        result.getD (st * 2 * t + c * t + i) 0⟩
                                  else .error .shapeVec
          else .error .missingInput
        else .error .missingInput

/-- **C9** — `run_window_demucs` rejects, without consulting the session (so
before any inference) and irrespective of the transform implementations and
of any manifest, every pair of slices whose lengths differ, and every pair
whose common length is not the fixed expected window length 343980. -/
theorem claim_C9_window_length (stft : List ℚ → List ℚ → ℕ → ℕ → List ℚ × ℕ × ℕ)
    (istft : List (List ℚ) → ℕ → ℕ → ℕ → ℕ → ℕ → List (List ℚ × List ℚ))
    (sess : Session) (left right : List ℚ) :
    (left.length ≠ right.length →
      run_window_demucs stft istft sess left right = .error .lrMismatch) ∧
    (left.length = right.length → left.length ≠ 343980 →
      run_window_demucs stft istft sess left right = .error .badWindowLen) := by
  constructor
  · intro h
    rw [run_window_demucs, if_pos h]
  · intro heq hne
    have hne' : left.length ≠ DEMUCS_T := hne
    rw [run_window_demucs, if_neg (not_not_intro heq)]
    show (if left.length ≠ DEMUCS_T then _ else _) = _
    rw [if_pos hne']

/-- Witness for C9: a concrete length mismatch and a concrete wrong length. -/
theorem claim_C9_window_length_witness :
    run_window_demucs (fun _ _ _ _ => ([], 0, 0)) (fun _ _ _ _ _ _ => [])
      ⟨[], fun _ => .error .engineFail⟩ [1] [] = .error .lrMismatch ∧
    run_window_demucs (fun _ _ _ _ => ([], 0, 0)) (fun _ _ _ _ _ _ => [])
      ⟨[], fun _ => .error .engineFail⟩ [1] [2] = .error .badWindowLen := by
  constructor
  · exact (claim_C9_window_length (fun _ _ _ _ => ([], 0, 0))
      (fun _ _ _ _ _ _ => []) ⟨[], fun _ => .error .engineFail⟩ [1] []).1
      (by decide)
  · exact (claim_C9_window_length (fun _ _ _ _ => ([], 0, 0))
      (fun _ _ _ _ _ _ => []) ⟨[], fun _ => .error .engineFail⟩ [1] [2]).2
      (by decide) (by decide)

/-! ### Characterisation of the combining loop (C7) -/

theorem getD_drop_take (l : List ℚ) (a t i : ℕ) (h : i < t) :
    ((l.drop a).take t).getD i 0 = l.getD (a + i) 0 := by
  rw [List.getD_eq_getElem?_getD, List.getElem?_take, if_pos h,
    List.getElem?_drop, List.getD_eq_getElem?_getD]

theorem getD_append_left (l1 l2 : List ℚ) (i : ℕ) (h : i < l1.length) :
    (l1 ++ l2).getD i 0 = l1.getD i 0 := by
  rw [List.getD_eq_getElem?_getD, List.getElem?_append, if_pos h,
    List.getD_eq_getElem?_getD]

theorem getD_append_right (l1 l2 : List ℚ) (j : ℕ) (h : l1.length ≤ j) :
    (l1 ++ l2).getD j 0 = l2.getD (j - l1.length) 0 := by
  rw [List.getD_eq_getElem?_getD, List.getElem?_append, if_neg (by omega),
    List.getD_eq_getElem?_getD]

theorem getD_map_range (t i : ℕ) (h : i < t) (f : ℕ → ℚ) :
    ((List.range t).map f).getD i 0 = f i := by
  rw [List.getD_eq_getElem?_getD, List.getElem?_map, List.getElem?_range h]
  rfl

/-- Success and pointwise description of the combining loop: entry
`m * 2 * t + c * t + i` of the flat result is the plain sum of the time
branch and the decoded frequency branch of source `src + m`, channel `c`,
sample `i`. -/
theorem combineSources_ok (data_time : List ℚ) (t : ℕ) :
    ∀ (ir : List (List ℚ × List ℚ)) (src : ℕ),
      (∀ p ∈ ir, t ≤ p.1.length ∧ t ≤ p.2.length) →
      (src + ir.length) * 2 * t ≤ data_time.length →
      ∃ comb, combineSources data_time t src ir = .ok comb ∧
        comb.length = ir.length * 2 * t ∧
        ∀ m, m < ir.length → ∀ i, i < t →
          (comb.getD (m * 2 * t + i) 0 =
            data_time.getD ((src + m) * 2 * t + i) 0 +
              (ir.getD m ([], [])).1.getD i 0) ∧
          (comb.getD (m * 2 * t + t + i) 0 =
            data_time.getD ((src + m) * 2 * t + t + i) 0 +
              (ir.getD m ([], [])).2.getD i 0) := by
  intro ir
  induction ir with
  | nil =>
      intro src _ _
      exact ⟨[], rfl, by simp, fun m hm => absurd hm (by simp)⟩
  | cons p rest ih =>
      intro src hall hlen
      obtain ⟨lf, rf⟩ := p
      have hpl : t ≤ lf.length := (hall (lf, rf) (List.mem_cons_self _ _)).1
      have hpr : t ≤ rf.length := (hall (lf, rf) (List.mem_cons_self _ _)).2
      have hexp : (src + (rest.length + 1)) * 2 * t =
          src * 2 * t + 2 * t + rest.length * 2 * t := by ring
      have hexp2 : (src + 1 + rest.length) * 2 * t =
          (src + (rest.length + 1)) * 2 * t := by ring
      simp only [List.length_cons] at hlen
      obtain ⟨tail, htail, htlen, htget⟩ :=
        ih (src + 1) (fun q hq => hall q (List.mem_cons_of_mem _ hq))
          (by omega)
      rw [combineSources, if_neg (by omega), if_neg (by omega), htail]
      set mapL := (List.range t).map
        (fun i => ((data_time.drop (src * 2 * t)).take t).getD i 0 + lf.getD i 0)
        with hmapL
      set mapR := (List.range t).map
        (fun i => ((data_time.drop (src * 2 * t + t)).take t).getD i 0 + rf.getD i 0)
        with hmapR
      have hlL : mapL.length = t := by rw [hmapL]; simp
      have hlR : mapR.length = t := by rw [hmapR]; simp
      have hLR : (mapL ++ mapR).length = 2 * t := by
        rw [List.length_append, hlL, hlR]; omega
      refine ⟨(mapL ++ mapR) ++ tail, rfl, ?_, ?_⟩
      · simp only [List.length_append, hlL, hlR, htlen, List.length_cons]
        ring
      · intro m hm i hi
        cases m with
        | zero =>
            constructor
            · rw [Nat.zero_mul, Nat.zero_add,
                getD_append_left _ _ i (by omega),
                getD_append_left _ _ i (by omega),
                hmapL, getD_map_range t i hi,
                getD_drop_take data_time (src * 2 * t) t i hi]
              simp
            · rw [Nat.zero_mul, Nat.zero_add,
                getD_append_left _ _ (t + i) (by omega),
                getD_append_right _ _ (t + i) (by omega), hlL]
              have hti : t + i - t = i := by omega
              rw [hti, hmapR, getD_map_range t i hi,
                getD_drop_take data_time (src * 2 * t + t) t i hi]
              simp
        | succ m' =>
            simp only [List.length_cons] at hm
            have hsm := htget m' (by omega) i hi
            have he1 : (m' + 1) * 2 * t = 2 * t + m' * 2 * t := by ring
            have he2 : (src + 1 + m') * 2 * t = (src + (m' + 1)) * 2 * t := by
              ring
            rw [he2] at hsm
            have hidx : (m' + 1) * 2 * t + i - 2 * t = m' * 2 * t + i := by
              omega
            have hidx2 : (m' + 1) * 2 * t + t + i - 2 * t =
                m' * 2 * t + t + i := by omega
            constructor
            · rw [getD_append_right _ _ ((m' + 1) * 2 * t + i) (by omega),
                hLR, hidx, List.getD_cons_succ]
              exact hsm.1
            · rw [getD_append_right _ _ ((m' + 1) * 2 * t + t + i) (by omega),
                hLR, hidx2, List.getD_cons_succ]
              exact hsm.2

/-- **C7** — Output combination: whenever `run_window_demucs` succeeds
against a session returning well-formed `"output"`/`"add_67"` tensors, each
sample of the returned per-source output is the plain elementwise sum of the
engine's time-domain branch and the inverse-transform decode (`istft`) of its
frequency-domain branch — per sample, per channel, per source, with no
weighting or gating. -/
theorem claim_C7_combine
    (stft : List ℚ → List ℚ → ℕ → ℕ → List ℚ × ℕ × ℕ)
    (istft : List (List ℚ) → ℕ → ℕ → ℕ → ℕ → ℕ → List (List ℚ × List ℚ))
    (sess : Session) (left right spec : List ℚ)
    (S : ℕ) (data_time data_freq : List ℚ)
    (ir : List (List ℚ × List ℚ))
    (hllen : left.length = DEMUCS_T) (hrlen : right.length = DEMUCS_T)
    (hstft : stft left right DEMUCS_NFFT DEMUCS_HOP =
      (spec, DEMUCS_F, DEMUCS_FRAMES))
    (hin1 : "input" ∈ sess.inputs) (hin2 : "x" ∈ sess.inputs)
    (hrun : sess.run
        [("input", ⟨[1, 2, (left.length : ℤ)], left ++ right⟩),
         ("x", ⟨[1, 4, (DEMUCS_F : ℤ), (DEMUCS_FRAMES : ℤ)], spec⟩)] =
      .ok [("output",
              ⟨[1, (S : ℤ), 4, (DEMUCS_F : ℤ), (DEMUCS_FRAMES : ℤ)], data_freq⟩),
           ("add_67", ⟨[1, (S : ℤ), 2, (DEMUCS_T : ℤ)], data_time⟩)])
    (hdt : data_time.length = S * 2 * DEMUCS_T)
    (hdf : data_freq.length = S * 4 * DEMUCS_F * DEMUCS_FRAMES)
    (hir : istft ((List.range S).map
        (fun src => (data_freq.drop (src * (4 * DEMUCS_F * DEMUCS_FRAMES))).take
          (4 * DEMUCS_F * DEMUCS_FRAMES)))
      DEMUCS_F DEMUCS_FRAMES DEMUCS_NFFT DEMUCS_HOP left.length = ir)
    (hirlen : ir.length = S)
    (hirall : ∀ p ∈ ir, DEMUCS_T ≤ p.1.length ∧ DEMUCS_T ≤ p.2.length) :
    ∃ out, run_window_demucs stft istft sess left right = .ok out ∧
      out.sCount = S ∧ out.tOut = DEMUCS_T ∧
      ∀ src, src < S → ∀ i, i < DEMUCS_T →
        out.data src 0 i =
          data_time.getD (src * 2 * DEMUCS_T + i) 0 +
            (ir.getD src ([], [])).1.getD i 0 ∧
        out.data src 1 i =
          data_time.getD (src * 2 * DEMUCS_T + DEMUCS_T + i) 0 +
            (ir.getD src ([], [])).2.getD i 0 := by
  obtain ⟨comb, hcomb, hclen, hcget⟩ :=
    combineSources_ok data_time DEMUCS_T ir 0 hirall
      (by rw [hirlen, hdt]; ring_nf; omega)
  rw [hllen] at hrun hir
  have hmain : run_window_demucs stft istft sess left right =
      .ok ⟨S, DEMUCS_T,
        fun st c i => comb.getD (st * 2 * DEMUCS_T + c * DEMUCS_T + i) 0⟩ := by
    rw [run_window_demucs, if_neg (not_not_intro (hllen.trans hrlen.symm))]
    show (if left.length ≠ DEMUCS_T then _ else _) = _
    rw [if_neg (not_not_intro hllen)]
    simp only [hstft, hllen]
    rw [if_neg (by simp), if_pos hin1, if_pos hin2]
    simp only [hrun]
    simp only [show findOutputs
        [("output",
            (⟨[1, (S : ℤ), 4, (DEMUCS_F : ℤ), (DEMUCS_FRAMES : ℤ)], data_freq⟩ :
              TensorVal)),
         ("add_67", ⟨[1, (S : ℤ), 2, (DEMUCS_T : ℤ)], data_time⟩)] =
      (some ⟨[1, (S : ℤ), 4, (DEMUCS_F : ℤ), (DEMUCS_FRAMES : ℤ)], data_freq⟩,
       some ⟨[1, (S : ℤ), 2, (DEMUCS_T : ℤ)], data_time⟩) from rfl]
    simp only [show idxI [1, (S : ℤ), 2, (DEMUCS_T : ℤ)] 1 = .ok (S : ℤ) from by
      rw [idxI, if_pos (by simp)]; rfl]
    simp only [Int.toNat_natCast]
    simp only [show validateFreqShape
        [1, (S : ℤ), 4, (DEMUCS_F : ℤ), (DEMUCS_FRAMES : ℤ)]
        S DEMUCS_F DEMUCS_FRAMES = .ok () from by
      rw [validateFreqShape]
      simp [idxI, except_ok_bind]]
    rw [if_neg (by omega)]
    simp only [hir, hcomb]
    rw [if_pos (by rw [hclen, hirlen])]
  refine ⟨_, hmain, rfl, rfl, ?_⟩
  intro src hsrc i hi
  have h1 := (hcget src (by omega) i hi).1
  have h2 := (hcget src (by omega) i hi).2
  simp only [Nat.zero_add] at h1 h2
  constructor
  · show comb.getD (src * 2 * DEMUCS_T + 0 * DEMUCS_T + i) 0 = _
    have hidx : src * 2 * DEMUCS_T + 0 * DEMUCS_T + i =
        src * 2 * DEMUCS_T + i := by ring
    rw [hidx]
    exact h1
  · show comb.getD (src * 2 * DEMUCS_T + 1 * DEMUCS_T + i) 0 = _
    have hidx : src * 2 * DEMUCS_T + 1 * DEMUCS_T + i =
        src * 2 * DEMUCS_T + DEMUCS_T + i := by ring
    rw [hidx]
    exact h2

/-- Concrete data for the C7 witness. -/
def c7Left : List ℚ := List.replicate 343980 0

def c7DataTime : List ℚ := List.replicate (2 * 343980) 0

def c7DataFreq : List ℚ := List.replicate (4 * 2048 * 336) 0

def c7Stft : List ℚ → List ℚ → ℕ → ℕ → List ℚ × ℕ × ℕ :=
  fun _ _ _ _ => ([], 2048, 336)

def c7Istft : List (List ℚ) → ℕ → ℕ → ℕ → ℕ → ℕ → List (List ℚ × List ℚ) :=
  fun specs _ _ _ _ t => specs.map (fun _ => (List.replicate t 0, List.replicate t 0))

def c7Sess : Session :=
  ⟨["input", "x"], fun _ => .ok
    [("output", ⟨[1, 1, 4, 2048, 336], c7DataFreq⟩),
     ("add_67", ⟨[1, 1, 2, 343980], c7DataTime⟩)]⟩

/-- Witness for C7: a single-source session with zero tensors. -/
theorem claim_C7_combine_witness :
    ∃ out, run_window_demucs c7Stft c7Istft c7Sess c7Left c7Left = .ok out ∧
      out.sCount = 1 ∧ out.tOut = DEMUCS_T := by
  have hlen : c7Left.length = DEMUCS_T := by
    rw [c7Left, List.length_replicate]; rfl
  have hir : c7Istft ((List.range 1).map
      (fun src => (c7DataFreq.drop (src * (4 * DEMUCS_F * DEMUCS_FRAMES))).take
        (4 * DEMUCS_F * DEMUCS_FRAMES)))
      DEMUCS_F DEMUCS_FRAMES DEMUCS_NFFT DEMUCS_HOP c7Left.length =
      [(List.replicate 343980 0, List.replicate 343980 0)] := by
    rw [c7Istft]
    rw [List.map_map, List.range_succ, List.range_zero, List.nil_append,
      List.map_cons, List.map_nil]
    simp only [Function.comp_apply]
    rw [hlen]
    rfl
  obtain ⟨out, hout, hsc, hto, -⟩ := claim_C7_combine c7Stft c7Istft c7Sess
    c7Left c7Left [] 1 c7DataTime c7DataFreq
    [(List.replicate 343980 0, List.replicate 343980 0)]
    hlen hlen rfl
    (List.mem_cons_self _ _)
    (by rw [c7Sess]; exact List.mem_cons_of_mem _ (List.mem_cons_self _ _))
    rfl
    (by rw [c7DataTime, List.length_replicate]; rfl)
    (by rw [c7DataFreq, List.length_replicate]; rfl)
    hir
    rfl
    (by
      intro p hp
      rcases List.mem_singleton.mp hp with rfl
      constructor <;> exact le_of_eq (by rw [List.length_replicate]; rfl))
  exact ⟨out, hout, hsc, hto⟩

/-! ## The spectral transform kernel (spec §4.1)

The forward/inverse short-time transform lives in `src/core/dsp.rs`
(`stft_cac_stereo_centered` / `istft_cac_stereo_parallel`), which is not among
the provided sources; the definitions below are modelled from the spec. -/

/-- Modelled from the spec: centered padding (missing `dsp.rs`).  `NFFT/2`
zero samples are conceptually prepended (and appended) before framing, so the
padded signal holds sample `q - NFFT/2` of the input at position `q` when
`NFFT/2 ≤ q < NFFT/2 + T`, and zero elsewhere. -/
noncomputable def centerPad (N T : ℕ) (x : ℕ → ℂ) : ℕ → ℂ := fun q =>
  if N / 2 ≤ q ∧ q < N / 2 + T then x (q - N / 2) else 0

/-- Modelled from the spec: analysis frame `m` of the forward transform
(missing `dsp.rs`): the slice of the padded signal starting at `m * H`,
multiplied pointwise by the analysis window `w`. -/
noncomputable def frame (N : ℕ) (H T : ℕ) (w : ℕ → ℂ) (x : ℕ → ℂ) (m : ℕ) :
    ZMod N → ℂ :=
  fun j => w j.val * centerPad N T x (m * H + j.val)

/-- Modelled from the spec: the single-channel forward short-time transform
(missing `dsp.rs`): the per-frame complex transform (discrete Fourier
transform on `ZMod NFFT`) of each windowed frame. -/
noncomputable def stftChan (N : ℕ) [NeZero N] (H T : ℕ) (w : ℕ → ℂ)
    (x : ℕ → ℂ) : ℕ → ZMod N → ℂ :=
  fun m => ZMod.dft (frame N H T w x m)

/-- Modelled from the spec: the single-channel inverse short-time transform
(missing `dsp.rs`): invert the per-frame complex transform, apply the
synthesis window `ws`, overlap-add the frames at stride `H`, and remove the
centering pad. -/
noncomputable def istftChan (N : ℕ) [NeZero N] (H M : ℕ) (ws : ℕ → ℂ)
    (spec : ℕ → ZMod N → ℂ) : ℕ → ℂ :=
  fun i =>
    ∑ m ∈ Finset.range M,
      (if m * H ≤ i + N / 2 ∧ i + N / 2 < m * H + N then
        ws (i + N / 2 - m * H) *
          (ZMod.dft.symm (spec m)) ((i + N / 2 - m * H : ℕ) : ZMod N)
      else 0)

/-- Modelled from the spec: the CAC packing of the stereo forward transform
(missing `dsp.rs`): four planes (left-real, left-imag, right-real,
right-imag) of the two channels' spectra.  (The spec leaves the bin count `F`
unspecified; the model keeps all `NFFT` bins per frame.) -/
noncomputable def encodeCAC (N : ℕ) [NeZero N] (H T : ℕ) (w : ℕ → ℂ)
    (l r : ℕ → ℂ) : Fin 4 → ℕ → ZMod N → ℝ :=
  fun p m j =>
    match p with
    | 0 => (stftChan N H T w l m j).re
    | 1 => (stftChan N H T w l m j).im
    | 2 => (stftChan N H T w r m j).re
    | 3 => (stftChan N H T w r m j).im

/-- Modelled from the spec: the stereo inverse transform from the CAC planes
(missing `dsp.rs`): reassemble each channel's complex spectrum from its
real/imaginary planes and run the single-channel inverse transform. -/
noncomputable def decodeCAC (N : ℕ) [NeZero N] (H M : ℕ) (ws : ℕ → ℂ)
    (cac : Fin 4 → ℕ → ZMod N → ℝ) : ℕ → ℂ × ℂ :=
  fun i =>
    (istftChan N H M ws (fun m j => ⟨cac 0 m j, cac 1 m j⟩) i,
     istftChan N H M ws (fun m j => ⟨cac 2 m j, cac 3 m j⟩) i)

/-- The constant-overlap-add sum of the analysis/synthesis window pair at
padded position `q`, over `M` frames at stride `H`. -/
noncomputable def cola (N H M : ℕ) (w ws : ℕ → ℂ) (q : ℕ) : ℂ :=
  ∑ m ∈ Finset.range M,
    (if m * H ≤ q ∧ q < m * H + N then ws (q - m * H) * w (q - m * H) else 0)

/-- Single-channel perfect reconstruction under the constant-overlap-add
condition. -/
theorem istftChan_stftChan (N : ℕ) [NeZero N] (H T M : ℕ) (w ws : ℕ → ℂ)
    (x : ℕ → ℂ)
    (hcola : ∀ q, N / 2 ≤ q → q < N / 2 + T → cola N H M w ws q = 1) :
    ∀ i, i < T → istftChan N H M ws (stftChan N H T w x) i = x i := by
  intro i hi
  rw [istftChan]
  have hterm : ∀ m ∈ Finset.range M,
      (if m * H ≤ i + N / 2 ∧ i + N / 2 < m * H + N then
        ws (i + N / 2 - m * H) *
          (ZMod.dft.symm (stftChan N H T w x m))
            ((i + N / 2 - m * H : ℕ) : ZMod N)
      else 0) =
      (if m * H ≤ i + N / 2 ∧ i + N / 2 < m * H + N then
        ws (i + N / 2 - m * H) * w (i + N / 2 - m * H) else 0) *
        centerPad N T x (i + N / 2) := by
    intro m _
    by_cases hc : m * H ≤ i + N / 2 ∧ i + N / 2 < m * H + N
    · rw [if_pos hc, if_pos hc, stftChan, LinearEquiv.symm_apply_apply, frame]
      have hd : i + N / 2 - m * H < N := by omega
      rw [ZMod.val_cast_of_lt hd]
      have hq : m * H + (i + N / 2 - m * H) = i + N / 2 := by omega
      rw [hq, mul_assoc]
    · rw [if_neg hc, if_neg hc, zero_mul]
  rw [Finset.sum_congr rfl hterm, ← Finset.sum_mul]
  have hcc := hcola (i + N / 2) (by omega) (by omega)
  rw [cola] at hcc
  rw [hcc, one_mul, centerPad, if_pos ⟨by omega, by omega⟩]
  congr 1
  omega

/-- **C3** — Perfect reconstruction (spec-modelled: the transform kernel of
`dsp.rs` is not among the provided sources): for every stereo signal and
every transform-size/hop/frame-count configuration whose analysis/synthesis
window pair satisfies the constant-overlap-add condition over the signal's
padded support, decoding the encoded signal reproduces the original signal
exactly on `[0, T)`, independently of any inference engine. -/
theorem claim_C3_perfect_reconstruction (N : ℕ) [NeZero N] (H T M : ℕ)
    (w ws : ℕ → ℂ) (l r : ℕ → ℂ)
    (hcola : ∀ q, N / 2 ≤ q → q < N / 2 + T → cola N H M w ws q = 1) :
    ∀ i, i < T →
      decodeCAC N H M ws (encodeCAC N H T w l r) i = (l i, r i) := by
  intro i hi
  rw [decodeCAC]
  have hl : (fun m j => (⟨encodeCAC N H T w l r 0 m j,
      encodeCAC N H T w l r 1 m j⟩ : ℂ)) = stftChan N H T w l := by
    funext m j
    rfl
  have hr : (fun m j => (⟨encodeCAC N H T w l r 2 m j,
      encodeCAC N H T w l r 3 m j⟩ : ℂ)) = stftChan N H T w r := by
    funext m j
    rfl
  rw [hl, hr, istftChan_stftChan N H T M w ws l hcola i hi,
    istftChan_stftChan N H T M w ws r hcola i hi]

/-- Witness for C3: `NFFT = 2`, `H = 1`, `T = 1`, `M = 2`, constant analysis
window 1 and synthesis window 1/2 (a COLA pair), on the constant stereo
signal (3, 5). -/
theorem claim_C3_perfect_reconstruction_witness :
    decodeCAC 2 1 2 (fun _ => (1 / 2 : ℂ))
      (encodeCAC 2 1 1 (fun _ => 1) (fun _ => 3) (fun _ => 5)) 0 = (3, 5) := by
  refine claim_C3_perfect_reconstruction 2 1 1 2 (fun _ => 1)
    (fun _ => (1 / 2 : ℂ)) (fun _ => 3) (fun _ => 5) ?_ 0 (by omega)
  intro q hq1 hq2
  have hq : q = 1 := by omega
  subst hq
  rw [cola, Finset.sum_range_succ, Finset.sum_range_succ,
    Finset.sum_range_zero]
  norm_num
